import Mathlib

/-!
Verification of the infinitesimal-rigidity engine of PyRigi (pyrigi/framework.py)
against its specification.  Frameworks are shallowly embedded: sympy exact
rational arithmetic becomes ℚ, sympy column vectors become `List ℚ`, matrices
become row lists `List (List ℚ)`, Python dicts become insertion-ordered
association lists, and a Python assertion failure or raised exception becomes
`none`.  The graph collaborator (pyrigi.graph.Graph, backed by networkx) is not
part of the sources; its handful of operations are modelled from the spec.
-/

namespace PyRigi

/-- Entry of a rational vector; indices past the end read 0 (they only arise
outside the verified invariants). -/
def entry (v : List ℚ) (j : ℕ) : ℚ := v.getD j 0

/-- Pointwise difference of two vectors, the sympy expression p - q. -/
def vsub (p q : List ℚ) : List ℚ := List.zipWith (fun a b => a - b) p q

/-- Pointwise sum of two vectors. -/
def vadd (p q : List ℚ) : List ℚ := List.zipWith (fun a b => a + b) p q

/-- Scalar multiple c * v of a vector. -/
def smulV (c : ℚ) (v : List ℚ) : List ℚ := v.map (fun a => c * a)

/-- Dot product of two vectors. -/
def dotV (p q : List ℚ) : ℚ := (List.zipWith (fun a b => a * b) p q).sum

/-- The zero test used by orthogonalization: a sympy matrix is zero iff all of
its entries are zero. -/
def isZeroVec (v : List ℚ) : Bool := v.all (fun a => a == 0)

/-- Dictionary lookup in an insertion-ordered association list (Python dict). -/
def alookup (r : List (ℕ × List ℚ)) (v : ℕ) : Option (List ℚ) :=
  match r with
  | [] => none
  | q :: rest => if q.1 = v then some q.2 else alookup rest v

/-- Python dict assignment: overwrite in place when the key exists, append
otherwise. -/
def aset (r : List (ℕ × List ℚ)) (v : ℕ) (p : List ℚ) : List (ℕ × List ℚ) :=
  match r with
  | [] => [(v, p)]
  | q :: rest => if q.1 = v then (v, p) :: rest else q :: aset rest v p

/-- Python del on a dict: remove the entry of a key. -/
def adel (r : List (ℕ × List ℚ)) (v : ℕ) : List (ℕ × List ℚ) :=
  match r with
  | [] => []
  | q :: rest => if q.1 = v then rest else q :: adel rest v

/-- sorted(...) on a list of vertices: stable insertion sort, as Python
sorted. -/
def sortNats (l : List ℕ) : List ℕ := l.insertionSort (fun a b => a ≤ b)

/-- Lexicographic order on edge tuples, as Python compares pairs. -/
def edgeRel (e f : ℕ × ℕ) : Prop := e.1 < f.1 ∨ (e.1 = f.1 ∧ e.2 ≤ f.2)

instance : DecidableRel edgeRel := by
  unfold edgeRel
  infer_instance

/-- sorted(...) on a list of edge tuples. -/
def sortEdges (es : List (ℕ × ℕ)) : List (ℕ × ℕ) := es.insertionSort edgeRel

/-- First row with a nonzero entry in column c, together with the remaining
rows in their original order. -/
def findPivotRow (rows : List (List ℚ)) (c : ℕ) : Option (List ℚ × List (List ℚ)) :=
  match rows with
  | [] => none
  | r :: rest =>
      if entry r c ≠ 0 then some (r, rest)
      else
        match findPivotRow rest c with
        | none => none
        | some pr => some (pr.1, r :: pr.2)

/-- Eliminate column c from row r using a pivot row p whose entry at c is 1:
the row operation r - r[c] * p. -/
def elimAt (p : List ℚ) (c : ℕ) (r : List ℚ) : List ℚ := vsub r (smulV (entry r c) p)

/-- Reduced row echelon form, the procedure below sympy rank() and nullspace():
scan the columns left to right, scale the first row with a nonzero entry in the
current column to make the pivot 1, eliminate the column from the other rows,
and finally clear the later pivot columns from each pivot row.  Returns the
pivot columns together with the fully reduced nonzero rows (sympy keeps the
zero rows at the bottom of the matrix, where neither rank nor nullspace reads
them). -/
def rrefStep (p1 : List ℚ) (c : ℕ) (rec2 : List ℕ × List (List ℚ)) :
    List ℕ × List (List ℚ) :=
  (c :: rec2.1,
    (rec2.1.zip rec2.2).foldl (fun q ir => elimAt ir.2 ir.1 q) p1 :: rec2.2)

def rrefAux : List (List ℚ) → ℕ → ℕ → List ℕ × List (List ℚ)
  | _, _, 0 => ([], [])
  | rows, c, fuel + 1 =>
      match findPivotRow rows c with
      | none => rrefAux rows (c + 1) fuel
      | some pr =>
          rrefStep (smulV (entry pr.1 c)⁻¹ pr.1) c
            (rrefAux (pr.2.map (elimAt (smulV (entry pr.1 c)⁻¹ pr.1) c)) (c + 1) fuel)

/-- Column count of a row-list matrix. -/
def ncols (M : List (List ℚ)) : ℕ := (M.headD []).length

/-- Reduced row echelon form of a matrix. -/
def rrefOf (M : List (List ℚ)) : List ℕ × List (List ℚ) := rrefAux M 0 (ncols M)

/-- Matrix.rank(): the number of pivot columns of the reduced row echelon
form. -/
def rankQ (M : List (List ℚ)) : ℕ := (rrefOf M).1.length

/-- Position of a column among the pivot columns. -/
def pivotIdx (pivots : List ℕ) (k : ℕ) : Option ℕ :=
  match pivots with
  | [] => none
  | p :: rest => if p = k then some 0 else (pivotIdx rest k).map (fun i => i + 1)

/-- The sympy nullspace basis vector of a free column j: entry 1 at j, entry
-R[i, j] at the i-th pivot column, entry 0 elsewhere. -/
def nsVec (m : ℕ) (pivots : List ℕ) (rrows : List (List ℚ)) (j : ℕ) : List ℚ :=
  (List.range m).map (fun k =>
    if k = j then 1
    else
      match pivotIdx pivots k with
      | some i => -(entry (rrows.getD i []) j)
      | none => 0)

/-- The free columns of a matrix: the columns without a pivot. -/
def freeCols (M : List (List ℚ)) : List ℕ :=
  (List.range (ncols M)).filter (fun j => !((rrefOf M).1.contains j))

/-- Matrix.nullspace(): one basis vector per free column. -/
def nullspaceQ (M : List (List ℚ)) : List (List ℚ) :=
  (freeCols M).map (fun j => nsVec (ncols M) (rrefOf M).1 (rrefOf M).2 j)

/-- One Gram-Schmidt pass: subtract from v its projection onto each already
kept orthogonal basis vector, as sympy orthogonalize does sequentially. -/
def gsReduce (acc : List (List ℚ)) (v : List ℚ) : List ℚ :=
  acc.foldl (fun u e => vsub u (smulV (dotV u e / dotV e e) e)) v

/-- Matrix.orthogonalize(*vecs, rankcheck=False): keep the reduced vector when
it is nonzero, silently drop it otherwise. -/
def orthogonalizeQ (acc : List (List ℚ)) : List (List ℚ) → List (List ℚ)
  | [] => acc
  | v :: rest =>
      if isZeroVec (gsReduce acc v) then orthogonalizeQ acc rest
      else orthogonalizeQ (acc ++ [gsReduce acc v]) rest

/-- Modelled from the spec: the graph collaborator pyrigi.graph.Graph (backed
by networkx) is not among the sources.  Vertices are kept in insertion order
as networkx does; edges are unordered pairs stored with their insertion
orientation. -/
structure Graph where
  vertices : List ℕ
  edges : List (ℕ × ℕ)
  deriving DecidableEq, Repr

/-- Modelled from the spec: add_node appends a missing vertex, and is a no-op
on an existing one. -/
def Graph.add_node (G : Graph) (v : ℕ) : Graph :=
  if v ∈ G.vertices then G else { G with vertices := G.vertices ++ [v] }

/-- Membership of an unordered edge among stored oriented pairs. -/
def edgeMem (e : ℕ × ℕ) (es : List (ℕ × ℕ)) : Bool :=
  es.any (fun f => (f.1 == e.1 && f.2 == e.2) || (f.1 == e.2 && f.2 == e.1))

/-- Modelled from the spec: add an edge, inserting missing endpoints, without
duplicating an edge already present. -/
def Graph.add_edge_pair (G : Graph) (u v : ℕ) : Graph :=
  let G1 := (G.add_node u).add_node v
  if edgeMem (u, v) G1.edges then G1 else { G1 with edges := G1.edges ++ [(u, v)] }

/-- Modelled from the spec: delete one undirected edge. -/
def Graph.delete_edge (G : Graph) (e : ℕ × ℕ) : Graph :=
  let keep := fun f : ℕ × ℕ => !((f.1 == e.1 && f.2 == e.2) || (f.1 == e.2 && f.2 == e.1))
  { G with edges := G.edges.filter keep }

/-- Modelled from the spec: delete a vertex together with its incident
edges. -/
def Graph.delete_vertex (G : Graph) (v : ℕ) : Graph :=
  { vertices := G.vertices.filter (fun w => w != v)
    edges := G.edges.filter (fun f => f.1 != v && f.2 != v) }

/-- Modelled from the spec: the Graph constructor applied to an edge list, as
in Graph(K.edges). -/
def Graph.fromEdges (es : List (ℕ × ℕ)) : Graph :=
  es.foldl (fun G e => G.add_edge_pair e.1 e.2) { vertices := [], edges := [] }

/-- The edge list of networkx complete_graph n: the pairs (i, j) with i < j,
enumerated lexicographically. -/
def completeEdges (n : ℕ) : List (ℕ × ℕ) :=
  (List.range n).flatMap
    (fun i => ((List.range n).filter (fun j => Nat.blt i j)).map (fun j => (i, j)))

/-- A framework: a graph, a realization dict, and the dimension, the fields
written _graph, _realization and _dim in the source. -/
structure Framework where
  graph : Graph
  realization : List (ℕ × List ℚ)
  dim : ℕ
  deriving DecidableEq, Repr

/-- Framework.__init__: the dimension is the dim argument when the supplied
realization is empty and the length of its first value otherwise; every graph
vertex must have a realization entry of exactly that length (a failed assert
is none), and the stored realization is re-keyed over the graph vertex
list. -/
def dimOf (realization : List (ℕ × List ℚ)) (dim : ℕ) : ℕ :=
  match realization with
  | [] => dim
  | q :: _ => q.2.length

def Framework.init (graph : Graph) (realization : List (ℕ × List ℚ)) (dim : ℕ) :
    Option Framework :=
  if graph.vertices.all (fun v =>
      match alookup realization v with
      | some p => p.length == dimOf realization dim
      | none => false) then
    some { graph := graph
           realization := graph.vertices.map (fun v => (v, (alookup realization v).getD []))
           dim := dimOf realization dim }
  else none

/-- The coordinate vector of a vertex, self._realization[v]. -/
def Framework.realize (F : Framework) (v : ℕ) : List ℚ := (alookup F.realization v).getD []

/-- The coefficient delta(u, v, w) inside rigidity_matrix. -/
def deltaC (u v w : ℕ) : ℚ := if w = u then 1 else if w = v then -1 else 0

/-- One row of the rigidity matrix: the flattened blocks
delta(u, v, w) * (p_u - p_v) over the vertex order. -/
def rigidityRow (F : Framework) (ord : List ℕ) (e : ℕ × ℕ) : List ℚ :=
  (ord.map (fun w => smulV (deltaC e.1 e.2 w) (vsub (F.realize e.1) (F.realize e.2)))).flatten

/-- rigidity_matrix() under the default orderings: sorted vertices and sorted
edges. -/
def Framework.rigidityMatrixD (F : Framework) : List (List ℚ) :=
  (sortEdges F.graph.edges).map (rigidityRow F (sortNats F.graph.vertices))

/-- The set-equality assertion on a supplied vertex order. -/
def sameVertexSet (a b : List ℕ) : Bool :=
  (a.all (fun x => decide (x ∈ b))) && (b.all (fun x => decide (x ∈ a)))

/-- rigidity_matrix with an explicitly supplied vertex order (edges stay in
their default sorted order): asserts that the order has exactly the vertex
set. -/
def Framework.rigidity_matrix (F : Framework) (vertex_order : Option (List ℕ)) :
    Option (List (List ℚ)) :=
  match vertex_order with
  | none => some F.rigidityMatrixD
  | some ord =>
      if sameVertexSet F.graph.vertices ord then
        some ((sortEdges F.graph.edges).map (rigidityRow F ord))
      else none

/-- rigidity_matrix_rank(). -/
def Framework.rigidity_matrix_rank (F : Framework) : ℕ := rankQ F.rigidityMatrixD

/-- is_infinitesimally_rigid(): at most one vertex, or the rank attains
dim * |V| - dim * (dim + 1) / 2 over the integers (Python int arithmetic). -/
def Framework.is_infinitesimally_rigid (F : Framework) : Bool :=
  decide (F.graph.vertices.length ≤ 1) ||
    decide ((F.rigidity_matrix_rank : ℤ) =
      (F.dim : ℤ) * F.graph.vertices.length - (F.dim : ℤ) * ((F.dim : ℤ) + 1) / 2)

/-- is_infinitesimally_flexible(). -/
def Framework.is_infinitesimally_flexible (F : Framework) : Bool :=
  !F.is_infinitesimally_rigid

/-- delete_edge on a framework delegates to the graph collaborator. -/
def Framework.delete_edge (F : Framework) (e : ℕ × ℕ) : Framework :=
  { F with graph := F.graph.delete_edge e }

/-- The edge loop of is_minimally_infinitesimally_rigid: each trial deletes one
edge from a fresh deep copy and returns False as soon as a deletion leaves the
framework rigid. -/
def minRigidLoop (F : Framework) : List (ℕ × ℕ) → Bool
  | [] => true
  | e :: rest =>
      if (F.delete_edge e).is_infinitesimally_rigid then false else minRigidLoop F rest

/-- is_minimally_infinitesimally_rigid(). -/
def Framework.is_minimally_infinitesimally_rigid (F : Framework) : Bool :=
  if F.is_infinitesimally_rigid then minRigidLoop F F.graph.edges else false

/-- is_redundantly_rigid(): the loop body evaluates F.is_infinitesimally_rigid(F),
a bound-method call with a second positional argument, so the first iteration
raises TypeError; only an edgeless graph reaches the final return True. -/
def Framework.is_redundantly_rigid (F : Framework) : Option Bool :=
  match F.graph.edges with
  | [] => some true
  | _ :: _ => none

/-- infinitesimal_flexes(include_trivial=True), the raw nullspace of the
rigidity matrix. -/
def Framework.allFlexes (F : Framework) : List (List ℚ) := nullspaceQ F.rigidityMatrixD

/-- trivial_infinitesimal_flexes(): build the framework of
nx.complete_graph(|V|) via Graph(K.edges) with the same realization dict and
dimension, and take all of its infinitesimal flexes. -/
def Framework.trivial_infinitesimal_flexes (F : Framework) : Option (List (List ℚ)) :=
  (Framework.init (Graph.fromEdges (completeEdges F.graph.vertices.length))
      F.realization F.dim).map Framework.allFlexes

/-- infinitesimal_flexes(include_trivial): for False, orthogonalize the trivial
flexes followed by the full nullspace and return the slice
basis[len(trivial) : len(all) + 1]. -/
def Framework.infinitesimal_flexes (F : Framework) (include_trivial : Bool) :
    Option (List (List ℚ)) :=
  if include_trivial then some F.allFlexes
  else
    match F.trivial_infinitesimal_flexes with
    | none => none
    | some tf =>
        some (((orthogonalizeQ [] (tf ++ F.allFlexes)).drop tf.length).take
          (F.allFlexes.length + 1 - tf.length))

/-- nontrivial_infinitesimal_flexes(). -/
def Framework.nontrivial_infinitesimal_flexes (F : Framework) : Option (List (List ℚ)) :=
  F.infinitesimal_flexes false

/-- The body of the while-loop of add_vertex, with explicit fuel so that the
recursion is structural; the loop itself never exhausts the fuel chosen in
findFreeName, since any candidate beyond the largest vertex name is free. -/
def findFreeNameAux (vs : List ℕ) : ℕ → ℕ → ℕ
  | c, 0 => c
  | c, fuel + 1 => if c ∈ vs then findFreeNameAux vs (c + 1) fuel else c

/-- The while-loop of add_vertex that searches, from a starting candidate, the
first name not already a vertex. -/
def findFreeName (vs : List ℕ) (c : ℕ) : ℕ :=
  findFreeNameAux vs c (vs.foldr max 0 + 1 - c)

/-- add_vertex(point, vertex=None): when no name is supplied the candidate
starts at len(vertices) and increases until free; a supplied name that already
exists fails the assert; no check relates the point length to the dimension. -/
def Framework.add_vertex (F : Framework) (point : List ℚ) (vertex : Option ℕ) :
    Option Framework :=
  let v :=
    match vertex with
    | some w => w
    | none => findFreeName F.graph.vertices F.graph.vertices.length
  if v ∈ F.graph.vertices then none
  else some { F with realization := aset F.realization v point
                     graph := F.graph.add_node v }

/-- delete_vertex: del of a missing realization key raises (none); the graph
collaborator also drops the incident edges. -/
def Framework.delete_vertex (F : Framework) (v : ℕ) : Option Framework :=
  if (alookup F.realization v).isSome then
    some { F with graph := F.graph.delete_vertex v
                  realization := adel F.realization v }
  else none

/-- get_realization(): a deep copy of the realization dict, a pure value
here. -/
def Framework.get_realization (F : Framework) : List (ℕ × List ℚ) := F.realization

/-- set_realization(realization): assert every graph vertex has an entry of
length dim, then store the dict. -/
def Framework.set_realization (F : Framework) (r : List (ℕ × List ℚ)) :
    Option Framework :=
  if F.graph.vertices.all (fun v =>
      match alookup r v with
      | some p => p.length == F.dim
      | none => false) then some { F with realization := r }
  else none

/-- change_vertex_coordinates(vertex, point): assert the vertex has an entry
and the point has length dim, then assign. -/
def Framework.change_vertex_coordinates (F : Framework) (v : ℕ) (p : List ℚ) :
    Option Framework :=
  if (alookup F.realization v).isSome && (p.length == F.dim) then
    some { F with realization := aset F.realization v p }
  else none

/-- The update loop of change_vertex_coordinates_list. -/
def cvcLoop (F : Framework) : List (ℕ × List ℚ) → Option Framework
  | [] => some F
  | q :: rest =>
      match F.change_vertex_coordinates q.1 q.2 with
      | none => none
      | some F2 => cvcLoop F2 rest

/-- change_vertex_coordinates_list(vertices, points): the duplicate-name test
compares the results of two in-place list.sort() calls, both None, so the
AttributeError branch is unreachable; then the lengths are asserted equal and
the coordinates are updated one by one. -/
def Framework.change_vertex_coordinates_list (F : Framework) (vertices : List ℕ)
    (points : List (List ℚ)) : Option Framework :=
  if decide ((none : Option Unit) ≠ (none : Option Unit)) then none
  else if vertices.length == points.length then cvcLoop F (vertices.zip points)
  else none

/-- change_realization(subset): delegates to change_vertex_coordinates_list on
the keys and values of the dict. -/
def Framework.change_realization (F : Framework) (subset : List (ℕ × List ℚ)) :
    Option Framework :=
  F.change_vertex_coordinates_list (subset.map Prod.fst) (subset.map Prod.snd)

/-- Membership of a vector in the kernel of a row-list matrix: it is
orthogonal to every row. -/
def inKer (M : List (List ℚ)) (x : List ℚ) : Prop := ∀ r ∈ M, dotV r x = 0

/-- A vector of length m as a function on Fin m (entries past the end of a
shorter list read 0). -/
def toF (m : ℕ) (v : List ℚ) : Fin m → ℚ := fun i => entry v i

/-- The set of function-space vectors of a list of vectors. -/
def setL (m : ℕ) (l : List (List ℚ)) : Set (Fin m → ℚ) := {x | x ∈ l.map (toF m)}

/-- The dot product on function-space vectors. -/
def dotF {m : ℕ} (f g : Fin m → ℚ) : ℚ := ∑ i, f i * g i

/-- Structural properties of the reduced row echelon form of an m-column
matrix: as many reduced rows as pivot columns, strictly increasing pivot
columns below m, rows of length m, a unit entry on each pivot diagonal, and
zeros in every other pivot column. -/
structure RrefSpec (m : ℕ) (pivots : List ℕ) (rrows : List (List ℚ)) : Prop where
  lenEq : pivots.length = rrows.length
  sorted : List.Sorted (fun a b => a < b) pivots
  bounds : ∀ p ∈ pivots, p < m
  rowLen : ∀ r ∈ rrows, r.length = m
  unit : ∀ i, i < pivots.length → entry (rrows.getD i []) (pivots.getD i 0) = 1
  cross : ∀ i i2, i < pivots.length → i2 < pivots.length → i2 ≠ i →
    entry (rrows.getD i []) (pivots.getD i2 0) = 0

/-- The spec invariant of a framework: every vertex of the graph has exactly
one realization entry, and every realization vector has length dim. -/
def Framework.invariant (F : Framework) : Prop :=
  (∀ v ∈ F.graph.vertices, (F.realization.filter (fun q => q.1 == v)).length = 1) ∧
    ∀ q ∈ F.realization, q.2.length = F.dim

instance (F : Framework) : Decidable F.invariant := by
  unfold Framework.invariant
  infer_instance

/-- A triangle framework realized non-degenerately in the plane. -/
def triangleF : Framework :=
  { graph := { vertices := [0, 1, 2], edges := [(0, 1), (0, 2), (1, 2)] }
    realization := [(0, [0, 0]), (1, [1, 0]), (2, [0, 1])]
    dim := 2 }

/-- A 2-dimensional framework with the single vertex 0 at the origin. -/
def frameworkC6 : Framework :=
  { graph := { vertices := [0], edges := [] }
    realization := [(0, [0, 0])]
    dim := 2 }

/-- The state frameworkC6 reaches after add_vertex((1, 2, 3)): vertex 1 carries
a 3-dimensional coordinate inside a 2-dimensional framework. -/
def frameworkC6after : Framework :=
  { graph := { vertices := [0, 1], edges := [] }
    realization := [(0, [0, 0]), (1, [1, 2, 3])]
    dim := 2 }

/-- A framework whose vertex names 0, 2, 3 leave the gap 1 unused. -/
def frameworkC7 : Framework :=
  { graph := { vertices := [0, 2, 3], edges := [] }
    realization := [(0, [0, 0]), (2, [1, 0]), (3, [0, 1])]
    dim := 2 }

/-- A 2-dimensional framework on two placed vertices. -/
def frameworkC8 : Framework :=
  { graph := { vertices := [0, 1], edges := [] }
    realization := [(0, [0, 0]), (1, [1, 1])]
    dim := 2 }

/-- A single edge in dimension 1 whose endpoints coincide: the complete graph
on its vertices is infinitesimally flexible, so the trivial-flex space is
larger than dim (dim + 1) / 2. -/
def coincidentF : Framework :=
  { graph := { vertices := [0, 1], edges := [(0, 1)] }
    realization := [(0, [0]), (1, [0])]
    dim := 1 }

/-- An edgeless framework with one vertex in dimension 1: its rigidity matrix
is the 0 x 0 sympy matrix, whose nullspace is empty. -/
def oneVertexF : Framework :=
  { graph := { vertices := [0], edges := [] }
    realization := [(0, [0])]
    dim := 1 }

/-- A properly stretched segment in dimension 1: vertices 0 and 1 at the
points 0 and 1 joined by one edge. -/
def segF : Framework :=
  { graph := { vertices := [0, 1], edges := [(0, 1)] }
    realization := [(0, [0]), (1, [1])]
    dim := 1 }

/-- The rigidity matrix of the triangle under the vertex order (2, 0, 1). -/
def triangleM : List (List ℚ) :=
  [[0, 0, -1, 0, 1, 0], [0, 1, 0, -1, 0, 0], [-1, 1, 0, 0, 1, -1]]

/-- Every member of a list of naturals is at most the foldr maximum. -/
theorem le_foldr_max (vs : List ℕ) (c : ℕ) (h : c ∈ vs) : c ≤ vs.foldr max 0 := by
  induction vs with
  | nil => cases h
  | cons a t ih =>
      rcases List.mem_cons.mp h with h3 | h3
      · simp [h3]
      · exact Nat.le_trans (ih h3) (by simp)

/-- With enough fuel the loop result is not a vertex. -/
theorem findFreeNameAux_not_mem (vs : List ℕ) (fuel : ℕ) :
    ∀ c, vs.foldr max 0 + 1 ≤ c + fuel → findFreeNameAux vs c fuel ∉ vs := by
  induction fuel with
  | zero =>
      intro c hf hc
      have := le_foldr_max vs c hc
      simp only [findFreeNameAux] at hc
      omega
  | succ n ih =>
      intro c hf
      by_cases h : c ∈ vs
      · simpa [findFreeNameAux, h] using ih (c + 1) (by omega)
      · simp [findFreeNameAux, h]

/-- The auto-assigned vertex name is never an existing vertex. -/
theorem findFreeName_not_mem (vs : List ℕ) (c : ℕ) : findFreeName vs c ∉ vs :=
  findFreeNameAux_not_mem vs (vs.foldr max 0 + 1 - c) c (by omega)

/-- The loop result is at least the starting candidate. -/
theorem findFreeNameAux_ge (vs : List ℕ) (fuel : ℕ) :
    ∀ c, c ≤ findFreeNameAux vs c fuel := by
  induction fuel with
  | zero => intro c; simp [findFreeNameAux]
  | succ n ih =>
      intro c
      by_cases h : c ∈ vs
      · have := ih (c + 1)
        simp only [findFreeNameAux, h, if_true]
        omega
      · simp [findFreeNameAux, h]

/-- The auto-assigned vertex name is at least the starting candidate. -/
theorem findFreeName_ge (vs : List ℕ) (c : ℕ) : c ≤ findFreeName vs c :=
  findFreeNameAux_ge vs (vs.foldr max 0 + 1 - c) c

/-- Every candidate skipped by the loop was an existing vertex. -/
theorem findFreeNameAux_min (vs : List ℕ) (fuel : ℕ) :
    ∀ c k, c ≤ k → k < findFreeNameAux vs c fuel → k ∈ vs := by
  induction fuel with
  | zero =>
      intro c k h1 h2
      simp only [findFreeNameAux] at h2
      omega
  | succ n ih =>
      intro c k h1 h2
      by_cases h : c ∈ vs
      · rcases Nat.eq_or_lt_of_le h1 with h3 | h3
        · exact h3 ▸ h
        · exact ih (c + 1) k h3 (by simpa [findFreeNameAux, h] using h2)
      · simp only [findFreeNameAux, h, if_false] at h2
        omega

/-- Every name between the starting candidate and the assigned one is an
existing vertex. -/
theorem findFreeName_min (vs : List ℕ) (c k : ℕ) (h1 : c ≤ k)
    (h2 : k < findFreeName vs c) : k ∈ vs :=
  findFreeNameAux_min vs (vs.foldr max 0 + 1 - c) c k h1 h2

/-- A successful dict lookup returns an entry of the list. -/
theorem alookup_mem (r : List (ℕ × List ℚ)) (v : ℕ) (p : List ℚ)
    (h : alookup r v = some p) : (v, p) ∈ r := by
  induction r with
  | nil => cases h
  | cons q rest ih =>
      by_cases hq : q.1 = v
      · simp only [alookup, hq, if_true, Option.some.injEq] at h
        subst h
        exact hq ▸ List.mem_cons_self q rest
      · simp only [alookup, hq, if_false] at h
        exact List.mem_cons_of_mem q (ih h)

/-- Scaling by 1 is the identity. -/
theorem smulV_one (v : List ℚ) : smulV 1 v = v := by
  simp [smulV]

/-- Scaling a difference by -1 swaps its sides. -/
theorem smulV_neg_one_vsub (p q : List ℚ) : smulV (-1) (vsub p q) = vsub q p := by
  rw [smulV, vsub, List.map_zipWith, vsub, List.zipWith_comm (fun a b => a - b) q p]
  have h : (fun (a b : ℚ) => -1 * (a - b)) = fun (a b : ℚ) => b - a := by
    funext a b
    ring
  rw [h]

/-- Scaling by 0 gives the zero vector of the same length. -/
theorem smulV_zero (v : List ℚ) : smulV 0 v = List.replicate v.length 0 := by
  induction v with
  | nil => rfl
  | cons a t ih => simp [smulV, List.replicate] at *

/-- Length of a pointwise difference. -/
theorem vsub_length (p q : List ℚ) : (vsub p q).length = min p.length q.length := by
  simp [vsub]

/-- Length of a scalar multiple. -/
theorem smulV_length (c : ℚ) (v : List ℚ) : (smulV c v).length = v.length := by
  simp [smulV]

/-- Extracting the k-th block of length d from a flattened list of d-blocks. -/
theorem flatten_block_extract (bs : List (List ℚ)) (d : ℕ)
    (hb : ∀ b ∈ bs, b.length = d) :
    ∀ k, k < bs.length → ((bs.flatten.drop (k * d)).take d) = bs.getD k [] := by
  induction bs with
  | nil => intro k hk; cases hk
  | cons b rest ih =>
      intro k hk
      have hbl : b.length = d := hb b (List.mem_cons_self b rest)
      cases k with
      | zero =>
          simp only [Nat.zero_mul, List.drop_zero, List.flatten_cons, List.getD]
          rw [← hbl, List.take_left]
          rfl
      | succ k =>
          have hrest : ∀ x ∈ rest, x.length = d :=
            fun x hx => hb x (List.mem_cons_of_mem b hx)
          have hk2 : k < rest.length := by
            simpa using Nat.lt_of_succ_lt_succ hk
          have : (k + 1) * d = b.length + k * d := by
            rw [hbl]; ring
          rw [List.flatten_cons, this, List.drop_append]
          exact ih hrest k hk2

/-- The sorted edge list has the same length as the edge list. -/
theorem sortEdges_length (es : List (ℕ × ℕ)) : (sortEdges es).length = es.length :=
  (List.perm_insertionSort edgeRel es).length_eq

/-- Membership in the sorted edge list. -/
theorem mem_sortEdges (es : List (ℕ × ℕ)) (e : ℕ × ℕ) :
    e ∈ sortEdges es ↔ e ∈ es :=
  (List.perm_insertionSort edgeRel es).mem_iff

/-- Membership in the sorted vertex list. -/
theorem mem_sortNats (l : List ℕ) (v : ℕ) : v ∈ sortNats l ↔ v ∈ l :=
  (List.perm_insertionSort _ l).mem_iff

/-- getD inside the bounds commutes with map. -/
theorem getD_map_of_lt {α β : Type _} (l : List α) (f : α → β) (da : α) (db : β)
    (k : ℕ) (h : k < l.length) : (l.map f).getD k db = f (l.getD k da) := by
  rw [List.getD_eq_getElem?_getD, List.getElem?_map, List.getElem?_eq_getElem h]
  rw [List.getD_eq_getElem?_getD, List.getElem?_eq_getElem h]
  rfl

/-- getD inside the bounds is a member. -/
theorem getD_mem_of_lt {α : Type _} (l : List α) (d : α) (k : ℕ)
    (h : k < l.length) : l.getD k d ∈ l := by
  rw [List.getD_eq_getElem?_getD, List.getElem?_eq_getElem h]
  exact List.getElem_mem h

/-- The head of a nonempty list is a member. -/
theorem headD_mem {α : Type _} (l : List α) (d : α) (h : l ≠ []) :
    l.headD d ∈ l := by
  cases l with
  | nil => cases h rfl
  | cons a t => exact List.mem_cons_self a t

/-- The coordinate vector of a vertex with a realization entry has length
dim. -/
theorem realize_length (F : Framework) (v : ℕ)
    (hr : ∀ q ∈ F.realization, q.2.length = F.dim)
    (hk : (alookup F.realization v).isSome) :
    (F.realize v).length = F.dim := by
  cases hl : alookup F.realization v with
  | none => rw [hl] at hk; cases hk
  | some p =>
      have := hr (v, p) (alookup_mem _ _ _ hl)
      rw [Framework.realize, hl]
      exact this

/-- Every block of a rigidity row has length dim once the two endpoint
coordinates have length dim. -/
theorem rigidityRow_block_length (F : Framework) (e : ℕ × ℕ)
    (h1 : (F.realize e.1).length = F.dim)
    (h2 : (F.realize e.2).length = F.dim) (w : ℕ) :
    (smulV (deltaC e.1 e.2 w) (vsub (F.realize e.1) (F.realize e.2))).length = F.dim := by
  rw [smulV_length, vsub_length, h1, h2, Nat.min_self]

/-- A rigidity row has dim columns for each vertex of the order. -/
theorem rigidityRow_length (F : Framework) (ord : List ℕ) (e : ℕ × ℕ)
    (h1 : (F.realize e.1).length = F.dim)
    (h2 : (F.realize e.2).length = F.dim) :
    (rigidityRow F ord e).length = F.dim * ord.length := by
  rw [rigidityRow, List.length_flatten, List.map_map]
  have hc : (List.map (List.length ∘ fun w =>
      smulV (deltaC e.1 e.2 w) (vsub (F.realize e.1) (F.realize e.2))) ord) =
      List.map (fun _ => F.dim) ord := by
    apply List.map_congr_left
    intro w _
    exact rigidityRow_block_length F e h1 h2 w
  rw [hc, List.map_const', List.sum_replicate, smul_eq_mul, Nat.mul_comm]

/-- C3 amended: for a well-formed framework and any vertex order that is a
permutation of the vertex list, rigidity_matrix returns a matrix with one row
per edge, every row of dim * |V| entries — so with dim * |V| columns whenever
the graph has at least one edge, while an edgeless graph yields sympy's
0 x 0 matrix with 0 columns — the row of edge (u, v) holding p_u - p_v in the
dim columns of u, p_v - p_u in the dim columns of v, and zeros in every other
column block. -/
theorem C3_rigidity_matrix_shape_and_content (F : Framework) (ord : List ℕ)
    (M : List (List ℚ))
    (hr : ∀ q ∈ F.realization, q.2.length = F.dim)
    (hk : ∀ v ∈ F.graph.vertices, (alookup F.realization v).isSome)
    (he : ∀ e ∈ F.graph.edges, e.1 ∈ F.graph.vertices ∧ e.2 ∈ F.graph.vertices)
    (hperm : List.Perm ord F.graph.vertices)
    (hM : F.rigidity_matrix (some ord) = some M) :
    M.length = F.graph.edges.length ∧
      (∀ row ∈ M, row.length = F.dim * F.graph.vertices.length) ∧
      (F.graph.edges ≠ [] → ncols M = F.dim * F.graph.vertices.length) ∧
      ∀ i, i < M.length → ∀ k, k < ord.length →
        (((M.getD i []).drop (k * F.dim)).take F.dim) =
          (if ord.getD k 0 = ((sortEdges F.graph.edges).getD i (0, 0)).1 then
            vsub (F.realize ((sortEdges F.graph.edges).getD i (0, 0)).1)
              (F.realize ((sortEdges F.graph.edges).getD i (0, 0)).2)
          else if ord.getD k 0 = ((sortEdges F.graph.edges).getD i (0, 0)).2 then
            vsub (F.realize ((sortEdges F.graph.edges).getD i (0, 0)).2)
              (F.realize ((sortEdges F.graph.edges).getD i (0, 0)).1)
          else List.replicate F.dim 0) := by
  have hset : sameVertexSet F.graph.vertices ord = true := by
    rw [sameVertexSet, Bool.and_eq_true, List.all_eq_true, List.all_eq_true]
    refine ⟨fun x hx => decide_eq_true (hperm.mem_iff.mpr hx),
      fun x hx => decide_eq_true (hperm.mem_iff.mp hx)⟩
  rw [Framework.rigidity_matrix, if_pos hset, Option.some.injEq] at hM
  subst hM
  have hlenE : (sortEdges F.graph.edges).length = F.graph.edges.length :=
    sortEdges_length F.graph.edges
  have hreal : ∀ e ∈ sortEdges F.graph.edges,
      (F.realize e.1).length = F.dim ∧ (F.realize e.2).length = F.dim := by
    intro e hes
    have hee : e ∈ F.graph.edges := (mem_sortEdges _ e).mp hes
    exact ⟨realize_length F e.1 hr (hk e.1 (he e hee).1),
      realize_length F e.2 hr (hk e.2 (he e hee).2)⟩
  have hrows : ∀ row ∈ (sortEdges F.graph.edges).map (rigidityRow F ord),
      row.length = F.dim * F.graph.vertices.length := by
    intro row hrow
    obtain ⟨e, hes, rfl⟩ := List.mem_map.mp hrow
    rw [rigidityRow_length F ord e (hreal e hes).1 (hreal e hes).2,
      hperm.length_eq]
  refine ⟨by rw [List.length_map, hlenE], hrows, ?_, ?_⟩
  · intro hne
    have hMne : (sortEdges F.graph.edges).map (rigidityRow F ord) ≠ [] := by
      intro hc
      rw [List.map_eq_nil_iff] at hc
      have hp := List.perm_insertionSort edgeRel F.graph.edges
      rw [show List.insertionSort edgeRel F.graph.edges = sortEdges F.graph.edges
        from rfl, hc] at hp
      exact hne (List.Perm.eq_nil hp.symm)
    rw [ncols]
    exact hrows _ (headD_mem _ [] hMne)
  · intro i hi k hkk
    have hiE : i < (sortEdges F.graph.edges).length := by
      simpa using hi
    have hgm : (List.map (rigidityRow F ord) (sortEdges F.graph.edges)).getD i [] =
        rigidityRow F ord ((sortEdges F.graph.edges).getD i (0, 0)) :=
      getD_map_of_lt _ _ (0, 0) [] i hiE
    rw [hgm]
    set e := (sortEdges F.graph.edges).getD i (0, 0) with hedef
    have hemem : e ∈ sortEdges F.graph.edges := getD_mem_of_lt _ (0, 0) i hiE
    have h1 := (hreal e hemem).1
    have h2 := (hreal e hemem).2
    rw [rigidityRow,
      flatten_block_extract _ F.dim
        (by
          intro b hb
          obtain ⟨w, _, rfl⟩ := List.mem_map.mp hb
          exact rigidityRow_block_length F e h1 h2 w)
        k (by rw [List.length_map]; exact hkk),
      getD_map_of_lt ord _ 0 [] k hkk]
    by_cases hw1 : ord.getD k 0 = e.1
    · rw [if_pos hw1, hw1, deltaC, if_pos rfl, smulV_one]
    · rw [if_neg hw1]
      by_cases hw2 : ord.getD k 0 = e.2
      · rw [if_pos hw2, hw2, deltaC, if_neg (by exact fun hc => hw1 (hw2 ▸ hc)),
          if_pos rfl, smulV_neg_one_vsub]
      · rw [if_neg hw2, deltaC, if_neg hw1, if_neg hw2, smulV_zero, vsub_length,
          h1, h2, Nat.min_self]

/-- Witness for C3 at the triangle framework with the vertex order (2, 0, 1),
checking the row-count conjunct and the column-count conjunct of the
conclusion. -/
theorem C3_witness :
    ((∀ q ∈ triangleF.realization, q.2.length = triangleF.dim) ∧
      (∀ v ∈ triangleF.graph.vertices, (alookup triangleF.realization v).isSome) ∧
      (∀ e ∈ triangleF.graph.edges,
        e.1 ∈ triangleF.graph.vertices ∧ e.2 ∈ triangleF.graph.vertices) ∧
      List.Perm [2, 0, 1] triangleF.graph.vertices ∧
      triangleF.rigidity_matrix (some [2, 0, 1]) = some triangleM ∧
      triangleF.graph.edges ≠ []) ∧
      triangleM.length = triangleF.graph.edges.length ∧
      ncols triangleM = triangleF.dim * triangleF.graph.vertices.length := by
  have hM : triangleF.rigidity_matrix (some [2, 0, 1]) = some triangleM := by
    norm_num [Framework.rigidity_matrix, triangleF, triangleM, sameVertexSet,
      sortEdges, List.insertionSort, List.orderedInsert, edgeRel, rigidityRow,
      smulV, vsub, deltaC, Framework.realize, alookup]
  have h := C3_rigidity_matrix_shape_and_content triangleF [2, 0, 1] triangleM
    (by decide) (by decide) (by decide) (by decide) hM
  exact ⟨⟨by decide, by decide, by decide, by decide, hM, by decide⟩,
    h.1, h.2.2.1 (by decide)⟩

/-- C3 counterexample: the edgeless one-vertex framework in dimension 1, under
the valid vertex order [0], gets sympy's empty matrix back from
rigidity_matrix, with 0 columns although dim * |V| = 1; the claimed column
count fails on edgeless frameworks with vertices. -/
theorem C3_counterexample_edgeless_zero_columns :
    List.Perm [0] oneVertexF.graph.vertices ∧
      (oneVertexF.rigidity_matrix (some [0])).map ncols = some 0 ∧
      oneVertexF.dim * oneVertexF.graph.vertices.length = 1 := by
  refine ⟨by decide, ?_, by decide⟩
  rfl


/-- Entry of a cons at a successor index. -/
theorem entry_cons_succ (a : ℚ) (l : List ℚ) (k : ℕ) :
    entry (a :: l) (k + 1) = entry l k := by
  simp [entry]

/-- Entry of a cons at index zero. -/
theorem entry_cons_zero (a : ℚ) (l : List ℚ) : entry (a :: l) 0 = a := rfl

/-- Entry of the empty vector. -/
theorem entry_nil (k : ℕ) : entry [] k = 0 := by
  simp [entry]

/-- Entry of a zipWith inside both bounds. -/
theorem entry_zipWith (f : ℚ → ℚ → ℚ) (p q : List ℚ) (k : ℕ)
    (hp : k < p.length) (hq : k < q.length) :
    entry (List.zipWith f p q) k = f (entry p k) (entry q k) := by
  induction p generalizing q k with
  | nil => cases hp
  | cons a p ih =>
      cases q with
      | nil => cases hq
      | cons b q =>
          cases k with
          | zero => rfl
          | succ k =>
              rw [List.zipWith_cons_cons, entry_cons_succ, entry_cons_succ,
                entry_cons_succ]
              exact ih q k (Nat.lt_of_succ_lt_succ hp) (Nat.lt_of_succ_lt_succ hq)

/-- Entry of a scalar multiple, at any index. -/
theorem entry_smulV (c : ℚ) (v : List ℚ) (k : ℕ) :
    entry (smulV c v) k = c * entry v k := by
  induction v generalizing k with
  | nil => simp [smulV, entry_nil]
  | cons a t ih =>
      cases k with
      | zero => rfl
      | succ k =>
          rw [smulV, List.map_cons]
          rw [entry_cons_succ, entry_cons_succ]
          exact ih k

/-- The dot product as a sum over entries. -/
theorem dotV_eq_sum (m : ℕ) :
    ∀ p q : List ℚ, p.length = m → q.length = m →
      dotV p q = ∑ k ∈ Finset.range m, entry p k * entry q k := by
  induction m with
  | zero =>
      intro p q hp hq
      rw [List.length_eq_zero] at hp hq
      subst hp; subst hq
      simp [dotV]
  | succ n ih =>
      intro p q hp hq
      cases p with
      | nil => cases hp
      | cons a p2 =>
          cases q with
          | nil => cases hq
          | cons b q2 =>
              rw [dotV, List.zipWith_cons_cons, List.sum_cons]
              have hp2 : p2.length = n := Nat.succ_injective hp
              have hq2 : q2.length = n := Nat.succ_injective hq
              rw [Finset.sum_range_succ']
              have he : ∀ k, entry (a :: p2) (k + 1) * entry (b :: q2) (k + 1) =
                  entry p2 k * entry q2 k := by
                intro k
                rw [entry_cons_succ, entry_cons_succ]
              calc a * b + (List.zipWith (fun x y => x * y) p2 q2).sum
                  = a * b + dotV p2 q2 := rfl
                _ = a * b + ∑ k ∈ Finset.range n, entry p2 k * entry q2 k := by
                    rw [ih p2 q2 hp2 hq2]
                _ = (∑ k ∈ Finset.range n,
                      entry (a :: p2) (k + 1) * entry (b :: q2) (k + 1)) +
                      entry (a :: p2) 0 * entry (b :: q2) 0 := by
                    simp only [he, entry_cons_zero]
                    ring


/-- The dot product is symmetric. -/
theorem dotV_comm (p q : List ℚ) : dotV p q = dotV q p := by
  induction p generalizing q with
  | nil => cases q <;> rfl
  | cons a p ih =>
      cases q with
      | nil => rfl
      | cons b q =>
          rw [dotV, dotV, List.zipWith_cons_cons, List.zipWith_cons_cons,
            List.sum_cons, List.sum_cons, mul_comm a b]
          rw [show (List.zipWith (fun x y => x * y) p q).sum = dotV p q from rfl,
            show (List.zipWith (fun x y => x * y) q p).sum = dotV q p from rfl, ih q]

/-- Scaling the left argument scales the dot product. -/
theorem dotV_smulV_left (c : ℚ) (p x : List ℚ) :
    dotV (smulV c p) x = c * dotV p x := by
  induction p generalizing x with
  | nil => simp [smulV, dotV]
  | cons a p ih =>
      cases x with
      | nil => simp [smulV, dotV]
      | cons b x =>
          rw [smulV, List.map_cons, dotV, dotV, List.zipWith_cons_cons,
            List.zipWith_cons_cons, List.sum_cons, List.sum_cons]
          rw [show (List.zipWith (fun x y => x * y) (List.map (fun a => c * a) p) x).sum =
              dotV (smulV c p) x from rfl,
            show (List.zipWith (fun x y => x * y) p x).sum = dotV p x from rfl, ih x]
          ring

/-- The dot product of a difference of equal-length vectors distributes. -/
theorem dotV_vsub_left (p q x : List ℚ) (h : p.length = q.length) :
    dotV (vsub p q) x = dotV p x - dotV q x := by
  induction p generalizing q x with
  | nil =>
      cases q with
      | nil => simp [vsub, dotV]
      | cons b q => cases h
  | cons a p ih =>
      cases q with
      | nil => cases h
      | cons b q =>
          cases x with
          | nil => simp [vsub, dotV]
          | cons c x =>
              rw [vsub, List.zipWith_cons_cons, dotV, dotV, dotV,
                List.zipWith_cons_cons, List.zipWith_cons_cons,
                List.zipWith_cons_cons, List.sum_cons, List.sum_cons, List.sum_cons]
              rw [show (List.zipWith (fun x y => x * y)
                  (List.zipWith (fun a b => a - b) p q) x).sum = dotV (vsub p q) x from rfl,
                show (List.zipWith (fun x y => x * y) p x).sum = dotV p x from rfl,
                show (List.zipWith (fun x y => x * y) q x).sum = dotV q x from rfl,
                ih q x (Nat.succ_injective h)]
              ring

/-- The dot product of a vector with itself is nonnegative. -/
theorem dotV_self_nonneg (v : List ℚ) : 0 ≤ dotV v v := by
  induction v with
  | nil => simp [dotV]
  | cons a t ih =>
      rw [dotV, List.zipWith_cons_cons, List.sum_cons]
      rw [show (List.zipWith (fun x y => x * y) t t).sum = dotV t t from rfl]
      exact add_nonneg (mul_self_nonneg a) ih

/-- The dot product of a vector with itself vanishes exactly on the zero
vector. -/
theorem dotV_self_eq_zero_iff (v : List ℚ) :
    dotV v v = 0 ↔ isZeroVec v = true := by
  induction v with
  | nil => simp [dotV, isZeroVec]
  | cons a t ih =>
      rw [dotV, List.zipWith_cons_cons, List.sum_cons]
      rw [show (List.zipWith (fun x y => x * y) t t).sum = dotV t t from rfl]
      constructor
      · intro h
        have ha : a * a = 0 ∧ dotV t t = 0 := by
          constructor
          · nlinarith [dotV_self_nonneg t, mul_self_nonneg a]
          · nlinarith [dotV_self_nonneg t, mul_self_nonneg a]
        have ha0 : a = 0 := by
          rcases mul_self_eq_zero.mp ha.1 with h0
          exact h0
        rw [isZeroVec, List.all_cons]
        simp only [Bool.and_eq_true]
        refine ⟨by simp [ha0], ?_⟩
        rw [show (t.all fun a => a == 0) = isZeroVec t from rfl]
        exact ih.mp ha.2
      · intro h
        rw [isZeroVec, List.all_cons, Bool.and_eq_true] at h
        have ha0 : a = 0 := by simpa using h.1
        have ht : dotV t t = 0 := ih.mpr h.2
        rw [ha0, ht]
        ring

/-- A false zero test means some entry below the length is nonzero. -/
theorem not_isZeroVec_iff (v : List ℚ) :
    isZeroVec v = false ↔ ∃ k, k < v.length ∧ entry v k ≠ 0 := by
  rw [← Bool.not_eq_true, isZeroVec, List.all_eq_true]
  constructor
  · intro h
    by_contra hc
    push_neg at hc
    apply h
    intro x hx
    obtain ⟨k, hk, he⟩ := List.mem_iff_getElem.mp hx
    have h2 := hc k hk
    rw [entry, List.getD_eq_getElem?_getD, List.getElem?_eq_getElem hk] at h2
    simp only [Option.getD_some] at h2
    simp [← he, h2]
  · intro hk hc
    obtain ⟨k, hklt, hne⟩ := hk
    apply hne
    have hm : v.getD k 0 ∈ v := getD_mem_of_lt v 0 k hklt
    have := hc (v.getD k 0) hm
    simpa [entry] using this


/-- toF of a difference of two length-m vectors. -/
theorem toF_vsub (m : ℕ) (p q : List ℚ) (hp : p.length = m) (hq : q.length = m) :
    toF m (vsub p q) = toF m p - toF m q := by
  funext i
  have h := entry_zipWith (fun a b => a - b) p q i
    (by rw [hp]; exact i.isLt) (by rw [hq]; exact i.isLt)
  simpa [toF, vsub] using h

/-- toF of a scalar multiple. -/
theorem toF_smulV (m : ℕ) (c : ℚ) (v : List ℚ) :
    toF m (smulV c v) = c • toF m v := by
  funext i
  simp [toF, entry_smulV, smul_eq_mul]

/-- The function-space dot product agrees with the list dot product on
length-m vectors. -/
theorem dotF_toF (m : ℕ) (p q : List ℚ) (hp : p.length = m) (hq : q.length = m) :
    dotF (toF m p) (toF m q) = dotV p q := by
  rw [dotV_eq_sum m p q hp hq, dotF]
  exact Fin.sum_univ_eq_sum_range (fun k => entry p k * entry q k) m

/-- toF of a length-m vector vanishes exactly when the zero test holds. -/
theorem toF_eq_zero_iff (m : ℕ) (v : List ℚ) (hv : v.length = m) :
    toF m v = 0 ↔ isZeroVec v = true := by
  constructor
  · intro h
    cases hz : isZeroVec v
    · obtain ⟨k, hk, hne⟩ := (not_isZeroVec_iff v).mp hz
      exfalso
      apply hne
      have h2 := congrFun h ⟨k, by rw [← hv]; exact hk⟩
      simpa [toF] using h2
    · rfl
  · intro h
    funext i
    have hi : (i : ℕ) < v.length := by rw [hv]; exact i.isLt
    rw [isZeroVec, List.all_eq_true] at h
    have hm : v.getD i 0 ∈ v := getD_mem_of_lt v 0 i hi
    have h3 : v.getD (i : ℕ) 0 = 0 := by simpa using h _ hm
    exact h3

/-- A vector all of whose entries vanish is orthogonal to everything. -/
theorem dotV_eq_zero_of_left_zero (r x : List ℚ) (h : ∀ j, entry r j = 0) :
    dotV r x = 0 := by
  induction r generalizing x with
  | nil => cases x <;> simp [dotV]
  | cons a t ih =>
      cases x with
      | nil => simp [dotV]
      | cons b x2 =>
          rw [dotV, List.zipWith_cons_cons, List.sum_cons]
          rw [show (List.zipWith (fun x y => x * y) t x2).sum = dotV t x2 from rfl]
          have ha : a = 0 := h 0
          have ht : ∀ j, entry t j = 0 := fun j => by
            have := h (j + 1)
            rwa [entry_cons_succ] at this
          rw [ha, ih x2 ht]
          ring

/-- findPivotRow returns a permutation of the rows. -/
theorem findPivotRow_perm (c : ℕ) : ∀ rows p rest,
    findPivotRow rows c = some (p, rest) → List.Perm rows (p :: rest) := by
  intro rows
  induction rows with
  | nil => intro p rest h; cases h
  | cons r rs ih =>
      intro p rest h
      rw [findPivotRow] at h
      by_cases hr : entry r c ≠ 0
      · rw [if_pos hr, Option.some.injEq, Prod.mk.injEq] at h
        rw [← h.1, ← h.2]
      · rw [if_neg hr] at h
        cases hfp : findPivotRow rs c with
        | none => rw [hfp] at h; cases h
        | some pr =>
            rw [hfp, Option.some.injEq, Prod.mk.injEq] at h
            have hperm := ih pr.1 pr.2 (by rw [hfp])
            rw [← h.1, ← h.2]
            exact List.Perm.trans (List.Perm.cons r hperm) (List.Perm.swap pr.1 r pr.2)

/-- The pivot entry found by findPivotRow is nonzero. -/
theorem findPivotRow_entry (c : ℕ) : ∀ rows p rest,
    findPivotRow rows c = some (p, rest) → entry p c ≠ 0 := by
  intro rows
  induction rows with
  | nil => intro p rest h; cases h
  | cons r rs ih =>
      intro p rest h
      rw [findPivotRow] at h
      by_cases hr : entry r c ≠ 0
      · rw [if_pos hr, Option.some.injEq, Prod.mk.injEq] at h
        rw [← h.1]
        exact hr
      · rw [if_neg hr] at h
        cases hfp : findPivotRow rs c with
        | none => rw [hfp] at h; cases h
        | some pr =>
            rw [hfp, Option.some.injEq, Prod.mk.injEq] at h
            rw [← h.1]
            exact ih pr.1 pr.2 (by rw [hfp])

/-- When findPivotRow fails, the whole column is zero. -/
theorem findPivotRow_none (c : ℕ) : ∀ rows,
    findPivotRow rows c = none → ∀ r ∈ rows, entry r c = 0 := by
  intro rows
  induction rows with
  | nil => intro _ r hr; cases hr
  | cons r rs ih =>
      intro h r2 hr2
      rw [findPivotRow] at h
      by_cases hr : entry r c ≠ 0
      · rw [if_pos hr] at h; cases h
      · rw [if_neg hr] at h
        rcases List.mem_cons.mp hr2 with h3 | h3
        · rw [h3]
          exact not_not.mp hr
        · cases hfp : findPivotRow rs c with
          | none => exact ih hfp r2 h3
          | some pr => rw [hfp] at h; cases h

/-- Entry of an elimination step, inside the column bounds. -/
theorem entry_elimAt (m : ℕ) (p r : List ℚ) (c j : ℕ) (hp : p.length = m)
    (hr : r.length = m) (hj : j < m) :
    entry (elimAt p c r) j = entry r j - entry r c * entry p j := by
  rw [elimAt, vsub, entry_zipWith _ r _ j (by rw [hr]; exact hj)
    (by rw [smulV_length, hp]; exact hj), entry_smulV]

/-- Length of an elimination step on length-m rows. -/
theorem elimAt_length (m : ℕ) (p r : List ℚ) (c : ℕ) (hp : p.length = m)
    (hr : r.length = m) : (elimAt p c r).length = m := by
  rw [elimAt, vsub_length, smulV_length, hp, hr, Nat.min_self]

/-- Dot product of an elimination step with any vector. -/
theorem dotV_elimAt (m : ℕ) (p r x : List ℚ) (c : ℕ) (hp : p.length = m)
    (hr : r.length = m) :
    dotV (elimAt p c r) x = dotV r x - entry r c * dotV p x := by
  rw [elimAt, dotV_vsub_left r _ x (by rw [smulV_length, hp, hr]),
    dotV_smulV_left]


/-- getD below the length is getElem. -/
theorem getD_eq_getElem_of_lt {α : Type _} (l : List α) (d : α) (i : ℕ)
    (h : i < l.length) : l.getD i d = l[i] := by
  rw [List.getD_eq_getElem?_getD, List.getElem?_eq_getElem h]
  rfl

/-- Back-substitution keeps the row length. -/
theorem foldl_elim_length (m : ℕ) : ∀ L : List (ℕ × List ℚ), ∀ q0 : List ℚ,
    q0.length = m → (∀ ir ∈ L, ir.2.length = m) →
    (L.foldl (fun q ir => elimAt ir.2 ir.1 q) q0).length = m := by
  intro L
  induction L with
  | nil => intro q0 h _; exact h
  | cons ir L ih =>
      intro q0 h hL
      rw [List.foldl_cons]
      exact ih _ (elimAt_length m ir.2 q0 ir.1 (hL ir (List.mem_cons_self ir L)) h)
        (fun x hx => hL x (List.mem_cons_of_mem _ hx))

/-- Back-substitution leaves a column untouched when the initial row and every
participating row vanish there. -/
theorem foldl_elim_zero_col (m : ℕ) : ∀ L : List (ℕ × List ℚ), ∀ q0 : List ℚ,
    q0.length = m → (∀ ir ∈ L, ir.2.length = m) → ∀ j, j < m →
    entry q0 j = 0 → (∀ ir ∈ L, entry ir.2 j = 0) →
    entry (L.foldl (fun q ir => elimAt ir.2 ir.1 q) q0) j = 0 := by
  intro L
  induction L with
  | nil => intro q0 _ _ j _ h0 _; exact h0
  | cons ir L ih =>
      intro q0 hq hL j hj h0 hz
      rw [List.foldl_cons]
      refine ih _ (elimAt_length m ir.2 q0 ir.1 (hL ir (List.mem_cons_self ir L)) hq)
        (fun x hx => hL x (List.mem_cons_of_mem _ hx)) j hj ?_
        (fun x hx => hz x (List.mem_cons_of_mem _ hx))
      rw [entry_elimAt m ir.2 q0 ir.1 j (hL ir (List.mem_cons_self ir L)) hq hj,
        h0, hz ir (List.mem_cons_self ir L)]
      ring

/-- Back-substitution clears the pivot column of every participating row. -/
theorem foldl_elim_clears (m : ℕ) : ∀ L : List (ℕ × List ℚ), ∀ q0 : List ℚ,
    q0.length = m → (∀ ir ∈ L, ir.2.length = m) →
    (∀ ir ∈ L, ir.1 < m ∧ entry ir.2 ir.1 = 1) →
    List.Pairwise (fun ir js => entry js.2 ir.1 = 0) L →
    ∀ ir ∈ L, entry (L.foldl (fun q ir => elimAt ir.2 ir.1 q) q0) ir.1 = 0 := by
  intro L
  induction L with
  | nil => intro q0 _ _ _ _ ir h; cases h
  | cons ir0 L ih =>
      intro q0 hq hL hunit hpw ir hir
      have hq1len : (elimAt ir0.2 ir0.1 q0).length = m :=
        elimAt_length m ir0.2 q0 ir0.1 (hL ir0 (List.mem_cons_self ir0 L)) hq
      rcases List.mem_cons.mp hir with h3 | h3
      · subst h3
        rw [List.foldl_cons]
        refine foldl_elim_zero_col m L _ hq1len
          (fun x hx => hL x (List.mem_cons_of_mem _ hx)) ir.1
          (hunit ir (List.mem_cons_self ir L)).1 ?_
          (fun js hjs => (List.pairwise_cons.mp hpw).1 js hjs)
        rw [entry_elimAt m ir.2 q0 ir.1 ir.1 (hL ir (List.mem_cons_self ir L)) hq
          (hunit ir (List.mem_cons_self ir L)).1,
          (hunit ir (List.mem_cons_self ir L)).2]
        ring
      · rw [List.foldl_cons]
        exact ih _ hq1len (fun x hx => hL x (List.mem_cons_of_mem _ hx))
          (fun x hx => hunit x (List.mem_cons_of_mem _ hx))
          (List.pairwise_cons.mp hpw).2 ir h3

/-- Back-substitution against kernel rows does not change the dot product. -/
theorem foldl_elim_dotV (m : ℕ) : ∀ L : List (ℕ × List ℚ), ∀ q0 x : List ℚ,
    q0.length = m → (∀ ir ∈ L, ir.2.length = m) →
    (∀ ir ∈ L, dotV ir.2 x = 0) →
    dotV (L.foldl (fun q ir => elimAt ir.2 ir.1 q) q0) x = dotV q0 x := by
  intro L
  induction L with
  | nil => intro q0 x _ _ _; rfl
  | cons ir L ih =>
      intro q0 x hq hL hker
      rw [List.foldl_cons,
        ih _ x (elimAt_length m ir.2 q0 ir.1 (hL ir (List.mem_cons_self ir L)) hq)
          (fun y hy => hL y (List.mem_cons_of_mem _ hy))
          (fun y hy => hker y (List.mem_cons_of_mem _ hy)),
        dotV_elimAt m ir.2 q0 x ir.1 (hL ir (List.mem_cons_self ir L)) hq,
        hker ir (List.mem_cons_self ir L)]
      ring


/-- Unfolding rrefAux when the column has no pivot. -/
theorem rrefAux_none (rows : List (List ℚ)) (c n : ℕ)
    (hfp : findPivotRow rows c = none) :
    rrefAux rows c (n + 1) = rrefAux rows (c + 1) n := by
  rw [rrefAux, hfp]

/-- Unfolding rrefAux when a pivot row is found. -/
theorem rrefAux_some (rows : List (List ℚ)) (c n : ℕ) (p : List ℚ)
    (rest : List (List ℚ)) (hfp : findPivotRow rows c = some (p, rest)) :
    rrefAux rows c (n + 1) =
      rrefStep (smulV (entry p c)⁻¹ p) c
        (rrefAux (rest.map (elimAt (smulV (entry p c)⁻¹ p) c)) (c + 1) n) := by
  rw [rrefAux, hfp]

/-- The kernel of a cons of rows. -/
theorem inKer_cons (r : List ℚ) (l : List (List ℚ)) (x : List ℚ) :
    inKer (r :: l) x ↔ dotV r x = 0 ∧ inKer l x := by
  constructor
  · intro h
    exact ⟨h r (List.mem_cons_self r l), fun r2 hr2 => h r2 (List.mem_cons_of_mem _ hr2)⟩
  · intro h r2 hr2
    rcases List.mem_cons.mp hr2 with h3 | h3
    · rw [h3]; exact h.1
    · exact h.2 r2 h3

/-- The kernel only depends on the rows as a set. -/
theorem inKer_perm (l l2 : List (List ℚ)) (x : List ℚ) (h : List.Perm l l2) :
    inKer l x ↔ inKer l2 x := by
  constructor
  · intro hk r hr; exact hk r (h.mem_iff.mpr hr)
  · intro hk r hr; exact hk r (h.mem_iff.mp hr)

/-- Back-substitution leaves untouched every column where the participating
rows vanish. -/
theorem foldl_elim_entry (m : ℕ) : ∀ L : List (ℕ × List ℚ), ∀ q0 : List ℚ,
    q0.length = m → (∀ ir ∈ L, ir.2.length = m) → ∀ j, j < m →
    (∀ ir ∈ L, entry ir.2 j = 0) →
    entry (L.foldl (fun q ir => elimAt ir.2 ir.1 q) q0) j = entry q0 j := by
  intro L
  induction L with
  | nil => intro q0 _ _ j _ _; rfl
  | cons ir L ih =>
      intro q0 hq hL j hj hz
      rw [List.foldl_cons,
        ih _ (elimAt_length m ir.2 q0 ir.1 (hL ir (List.mem_cons_self ir L)) hq)
          (fun x hx => hL x (List.mem_cons_of_mem _ hx)) j hj
          (fun x hx => hz x (List.mem_cons_of_mem _ hx)),
        entry_elimAt m ir.2 q0 ir.1 j (hL ir (List.mem_cons_self ir L)) hq hj,
        hz ir (List.mem_cons_self ir L)]
      ring


/-- The zip of the pivot columns with the reduced rows of an RrefSpec: every
pair has a length-m row with unit entry at its own pivot, and later rows
vanish at earlier pivots (and conversely). -/
theorem rrefSpec_zip_facts (m : ℕ) (pivots : List ℕ) (rrows : List (List ℚ))
    (hspec : RrefSpec m pivots rrows) :
    (∀ ir ∈ pivots.zip rrows, ir.2.length = m) ∧
      (∀ ir ∈ pivots.zip rrows, ir.1 < m ∧ entry ir.2 ir.1 = 1) ∧
      List.Pairwise (fun ir js => entry js.2 ir.1 = 0) (pivots.zip rrows) := by
  have hzl : (pivots.zip rrows).length = pivots.length := by
    rw [List.length_zip, hspec.lenEq, Nat.min_self]
  refine ⟨?_, ?_, ?_⟩
  · intro ir hir
    exact hspec.rowLen ir.2 (List.of_mem_zip hir).2
  · intro ir hir
    obtain ⟨i, hi, he⟩ := List.mem_iff_getElem.mp hir
    rw [List.getElem_zip] at he
    have hip : i < pivots.length := by rw [← hzl]; exact hi
    have hir2 : i < rrows.length := by rw [← hspec.lenEq]; exact hip
    have h1 : ir.1 = pivots.getD i 0 := by
      rw [getD_eq_getElem_of_lt pivots 0 i hip, ← he]
    have h2 : ir.2 = rrows.getD i [] := by
      rw [getD_eq_getElem_of_lt rrows [] i hir2, ← he]
    constructor
    · rw [h1, getD_eq_getElem_of_lt pivots 0 i hip]
      exact hspec.bounds _ (List.getElem_mem hip)
    · rw [h1, h2]
      exact hspec.unit i hip
  · rw [List.pairwise_iff_getElem]
    intro i j hi hj hij
    rw [List.getElem_zip, List.getElem_zip]
    have hip : i < pivots.length := by rw [← hzl]; exact hi
    have hjp : j < pivots.length := by rw [← hzl]; exact hj
    have hjr : j < rrows.length := by rw [← hspec.lenEq]; exact hjp
    have := hspec.cross j i hjp hip (by omega)
    rw [getD_eq_getElem_of_lt rrows [] j hjr, getD_eq_getElem_of_lt pivots 0 i hip] at this
    exact this

/-- One elimination step extends an RrefSpec by a new pivot column c below all
existing pivots, after back-substituting the new pivot row. -/
theorem rrefStep_spec (m c : ℕ) (p1 : List ℚ) (pivots : List ℕ)
    (rrows : List (List ℚ))
    (hm : c < m)
    (hp1 : p1.length = m)
    (hp1c : entry p1 c = 1)
    (hp1low : ∀ j, j < c → entry p1 j = 0)
    (hspec : RrefSpec m pivots rrows)
    (hge : ∀ p ∈ pivots, c + 1 ≤ p)
    (hlow : ∀ r ∈ rrows, ∀ j, j < c + 1 → entry r j = 0) :
    RrefSpec m (rrefStep p1 c (pivots, rrows)).1 (rrefStep p1 c (pivots, rrows)).2 ∧
      (∀ p ∈ (rrefStep p1 c (pivots, rrows)).1, c ≤ p) ∧
      (∀ r ∈ (rrefStep p1 c (pivots, rrows)).2, ∀ j, j < c → entry r j = 0) := by
  obtain ⟨hzlen, hzunit, hzpw⟩ := rrefSpec_zip_facts m pivots rrows hspec
  have hzc : ∀ ir ∈ pivots.zip rrows, entry ir.2 c = 0 := by
    intro ir hir
    exact hlow ir.2 (List.of_mem_zip hir).2 c (Nat.lt_succ_self c)
  have hzlowj : ∀ j, j < c → ∀ ir ∈ pivots.zip rrows, entry ir.2 j = 0 := by
    intro j hj ir hir
    exact hlow ir.2 (List.of_mem_zip hir).2 j (Nat.lt_succ_of_lt hj)
  set p2 := (pivots.zip rrows).foldl (fun q ir => elimAt ir.2 ir.1 q) p1 with hp2def
  have hp2len : p2.length = m := foldl_elim_length m _ p1 hp1 hzlen
  have hp2c : entry p2 c = 1 := by
    rw [hp2def, foldl_elim_entry m _ p1 hp1 hzlen c hm hzc]
    exact hp1c
  have hp2low : ∀ j, j < c → entry p2 j = 0 := by
    intro j hj
    rw [hp2def, foldl_elim_entry m _ p1 hp1 hzlen j (Nat.lt_trans hj hm) (hzlowj j hj)]
    exact hp1low j hj
  have hp2clear : ∀ ir ∈ pivots.zip rrows, entry p2 ir.1 = 0 :=
    foldl_elim_clears m _ p1 hp1 hzlen hzunit hzpw
  have hzmem : ∀ i, i < pivots.length →
      (pivots.getD i 0, rrows.getD i []) ∈ pivots.zip rrows := by
    intro i hip
    have hir2 : i < rrows.length := by rw [← hspec.lenEq]; exact hip
    have hzl : i < (pivots.zip rrows).length := by
      rw [List.length_zip, hspec.lenEq, Nat.min_self, ← hspec.lenEq]
      exact hip
    have := List.getElem_mem hzl
    rw [List.getElem_zip] at this
    rw [getD_eq_getElem_of_lt pivots 0 i hip, getD_eq_getElem_of_lt rrows [] i hir2]
    exact this
  refine ⟨⟨?_, ?_, ?_, ?_, ?_, ?_⟩, ?_, ?_⟩
  · simp only [rrefStep, List.length_cons, hspec.lenEq]
  · rw [rrefStep]
    rw [List.sorted_cons]
    exact ⟨fun b hb => hge b hb, hspec.sorted⟩
  · intro p hp
    rcases List.mem_cons.mp hp with h3 | h3
    · rw [h3]; exact hm
    · exact hspec.bounds p h3
  · intro r hr
    rcases List.mem_cons.mp hr with h3 | h3
    · rw [h3]; exact hp2len
    · exact hspec.rowLen r h3
  · intro i hi
    cases i with
    | zero =>
        simp only [rrefStep, List.getD_cons_zero]
        exact hp2c
    | succ k =>
        simp only [rrefStep, List.getD_cons_succ]
        have hk : k < pivots.length := by
          simp only [rrefStep, List.length_cons] at hi
          omega
        exact hspec.unit k hk
  · intro i i2 hi hi2 hne
    have hlen1 : (rrefStep p1 c (pivots, rrows)).1.length = pivots.length + 1 := by
      simp [rrefStep]
    rw [hlen1] at hi hi2
    cases i with
    | zero =>
        cases i2 with
        | zero => cases hne rfl
        | succ k =>
            simp only [rrefStep, List.getD_cons_zero, List.getD_cons_succ]
            have hk : k < pivots.length := by omega
            exact hp2clear _ (hzmem k hk)
    | succ k =>
        cases i2 with
        | zero =>
            simp only [rrefStep, List.getD_cons_zero, List.getD_cons_succ]
            have hk : k < pivots.length := by omega
            have hkr : k < rrows.length := by rw [← hspec.lenEq]; exact hk
            exact hlow _ (getD_mem_of_lt rrows [] k hkr) c (Nat.lt_succ_self c)
        | succ k2 =>
            simp only [rrefStep, List.getD_cons_succ]
            exact hspec.cross k k2 (by omega) (by omega) (by omega)
  · intro p hp
    rcases List.mem_cons.mp hp with h3 | h3
    · omega
    · exact Nat.le_of_succ_le (hge p h3)
  · intro r hr j hj
    rcases List.mem_cons.mp hr with h3 | h3
    · rw [h3]; exact hp2low j hj
    · exact hlow r h3 j (Nat.lt_succ_of_lt hj)


/-- The elimination of the pivot column from the remaining rows keeps their
length and extends the vanishing columns by one. -/
theorem elim_rest_facts (m c : ℕ) (p1 : List ℚ) (rest : List (List ℚ))
    (hp1 : p1.length = m) (hp1c : entry p1 c = 1)
    (hp1low : ∀ j, j < c → entry p1 j = 0)
    (hc : c < m)
    (hlen : ∀ r ∈ rest, r.length = m)
    (hlow : ∀ r ∈ rest, ∀ j, j < c → entry r j = 0) :
    (∀ r ∈ rest.map (elimAt p1 c), r.length = m) ∧
      (∀ r ∈ rest.map (elimAt p1 c), ∀ j, j < c + 1 → entry r j = 0) := by
  constructor
  · intro r hr
    obtain ⟨r0, hr0, rfl⟩ := List.mem_map.mp hr
    exact elimAt_length m p1 r0 c hp1 (hlen r0 hr0)
  · intro r hr j hj
    obtain ⟨r0, hr0, rfl⟩ := List.mem_map.mp hr
    rcases Nat.lt_succ_iff_lt_or_eq.mp hj with h | h
    · rw [entry_elimAt m p1 r0 c j hp1 (hlen r0 hr0) (Nat.lt_trans h hc),
        hlow r0 hr0 j h, hp1low j h]
      ring
    · rw [h, entry_elimAt m p1 r0 c c hp1 (hlen r0 hr0) hc, hp1c]
      ring

/-- The scaled pivot row: length m, unit entry at the pivot column, vanishing
below it. -/
theorem scaled_pivot_facts (m c : ℕ) (p : List ℚ) (hp : p.length = m)
    (hne : entry p c ≠ 0) (hlow : ∀ j, j < c → entry p j = 0) :
    (smulV (entry p c)⁻¹ p).length = m ∧
      entry (smulV (entry p c)⁻¹ p) c = 1 ∧
      ∀ j, j < c → entry (smulV (entry p c)⁻¹ p) j = 0 := by
  refine ⟨by rw [smulV_length, hp], ?_, ?_⟩
  · rw [entry_smulV]
    exact inv_mul_cancel₀ hne
  · intro j hj
    rw [entry_smulV, hlow j hj]
    ring

/-- The structural invariant of the full elimination: from column c with fuel
m - c, on length-m rows vanishing below c, it yields a reduced row echelon
form with pivots in the interval from c to m and rows still vanishing below
c. -/
theorem rrefAux_spec (m : ℕ) : ∀ fuel c rows, c + fuel = m →
    (∀ r ∈ rows, r.length = m) →
    (∀ r ∈ rows, ∀ j, j < c → entry r j = 0) →
    RrefSpec m (rrefAux rows c fuel).1 (rrefAux rows c fuel).2 ∧
      (∀ p ∈ (rrefAux rows c fuel).1, c ≤ p) ∧
      (∀ r ∈ (rrefAux rows c fuel).2, ∀ j, j < c → entry r j = 0) := by
  intro fuel
  induction fuel with
  | zero =>
      intro c rows _ _ _
      refine ⟨⟨rfl, List.sorted_nil, ?_, ?_, ?_, ?_⟩, ?_, ?_⟩ <;>
        simp [rrefAux]
  | succ n ih =>
      intro c rows hsum hlen hlow
      cases hfp : findPivotRow rows c with
      | none =>
          rw [rrefAux_none rows c n hfp]
          have hlow2 : ∀ r ∈ rows, ∀ j, j < c + 1 → entry r j = 0 := by
            intro r hr j hj
            rcases Nat.lt_succ_iff_lt_or_eq.mp hj with h | h
            · exact hlow r hr j h
            · rw [h]
              exact findPivotRow_none c rows hfp r hr
          obtain ⟨h1, h2, h3⟩ := ih (c + 1) rows (by omega) hlen hlow2
          exact ⟨h1, fun p hp => Nat.le_of_succ_le (h2 p hp),
            fun r hr j hj => h3 r hr j (Nat.lt_succ_of_lt hj)⟩
      | some pr =>
          obtain ⟨p, rest⟩ := pr
          rw [rrefAux_some rows c n p rest hfp]
          have hperm := findPivotRow_perm c rows p rest hfp
          have hpmem : p ∈ rows := hperm.mem_iff.mpr (List.mem_cons_self p rest)
          have hrestmem : ∀ r ∈ rest, r ∈ rows :=
            fun r hr => hperm.mem_iff.mpr (List.mem_cons_of_mem p hr)
          have hne := findPivotRow_entry c rows p rest hfp
          have hcm : c < m := by
            by_contra hcm
            apply hne
            have : p.length ≤ c := by
              rw [hlen p hpmem]
              omega
            exact List.getD_eq_default p 0 this
          obtain ⟨hp1len, hp1c, hp1low⟩ := scaled_pivot_facts m c p (hlen p hpmem)
            hne (fun j hj => hlow p hpmem j hj)
          obtain ⟨hrest2len, hrest2low⟩ := elim_rest_facts m c _ rest hp1len hp1c
            hp1low hcm (fun r hr => hlen r (hrestmem r hr))
            (fun r hr => hlow r (hrestmem r hr))
          obtain ⟨hspec2, hge2, hlow3⟩ := ih (c + 1) _ (by omega) hrest2len hrest2low
          have := rrefStep_spec m c (smulV (entry p c)⁻¹ p)
            (rrefAux (rest.map (elimAt (smulV (entry p c)⁻¹ p) c)) (c + 1) n).1
            (rrefAux (rest.map (elimAt (smulV (entry p c)⁻¹ p) c)) (c + 1) n).2
            hcm hp1len hp1c hp1low hspec2 hge2 hlow3
          exact this

/-- The elimination preserves the kernel. -/
theorem rrefAux_ker (m : ℕ) : ∀ fuel c rows, c + fuel = m →
    (∀ r ∈ rows, r.length = m) →
    (∀ r ∈ rows, ∀ j, j < c → entry r j = 0) →
    ∀ x, inKer rows x ↔ inKer (rrefAux rows c fuel).2 x := by
  intro fuel
  induction fuel with
  | zero =>
      intro c rows hsum hlen hlow x
      constructor
      · intro _ r hr
        cases hr
      · intro _ r hr
        apply dotV_eq_zero_of_left_zero
        intro j
        by_cases hj : j < r.length
        · exact hlow r hr j (by rw [hlen r hr] at hj; omega)
        · exact List.getD_eq_default r 0 (by omega)
  | succ n ih =>
      intro c rows hsum hlen hlow x
      cases hfp : findPivotRow rows c with
      | none =>
          rw [rrefAux_none rows c n hfp]
          have hlow2 : ∀ r ∈ rows, ∀ j, j < c + 1 → entry r j = 0 := by
            intro r hr j hj
            rcases Nat.lt_succ_iff_lt_or_eq.mp hj with h | h
            · exact hlow r hr j h
            · rw [h]
              exact findPivotRow_none c rows hfp r hr
          exact ih (c + 1) rows (by omega) hlen hlow2 x
      | some pr =>
          obtain ⟨p, rest⟩ := pr
          rw [rrefAux_some rows c n p rest hfp]
          have hperm := findPivotRow_perm c rows p rest hfp
          have hpmem : p ∈ rows := hperm.mem_iff.mpr (List.mem_cons_self p rest)
          have hrestmem : ∀ r ∈ rest, r ∈ rows :=
            fun r hr => hperm.mem_iff.mpr (List.mem_cons_of_mem p hr)
          have hne := findPivotRow_entry c rows p rest hfp
          have hcm : c < m := by
            by_contra hcm
            apply hne
            have : p.length ≤ c := by
              rw [hlen p hpmem]
              omega
            exact List.getD_eq_default p 0 this
          obtain ⟨hp1len, hp1c, hp1low⟩ := scaled_pivot_facts m c p (hlen p hpmem)
            hne (fun j hj => hlow p hpmem j hj)
          obtain ⟨hrest2len, hrest2low⟩ := elim_rest_facts m c _ rest hp1len hp1c
            hp1low hcm (fun r hr => hlen r (hrestmem r hr))
            (fun r hr => hlow r (hrestmem r hr))
          have hihker := ih (c + 1) _ (by omega) hrest2len hrest2low x
          obtain ⟨hspec2, hge2, hlow3⟩ := rrefAux_spec m n (c + 1) _ (by omega)
            hrest2len hrest2low
          obtain ⟨hzlen, _, _⟩ := rrefSpec_zip_facts m _ _ hspec2
          have hstep1 : inKer rows x ↔ (dotV p x = 0 ∧ inKer rest x) := by
            rw [inKer_perm rows (p :: rest) x hperm, inKer_cons]
          have hdotp1 : dotV (smulV (entry p c)⁻¹ p) x = (entry p c)⁻¹ * dotV p x :=
            dotV_smulV_left _ p x
          have hstep2 : dotV p x = 0 ↔ dotV (smulV (entry p c)⁻¹ p) x = 0 := by
            rw [hdotp1]
            constructor
            · intro h; rw [h]; ring
            · intro h
              rcases mul_eq_zero.mp h with h2 | h2
              · exact absurd h2 (inv_ne_zero hne)
              · exact h2
          have hstep3 : dotV (smulV (entry p c)⁻¹ p) x = 0 →
              (inKer rest x ↔ inKer (rest.map (elimAt (smulV (entry p c)⁻¹ p) c)) x) := by
            intro hd
            constructor
            · intro hk r hr
              obtain ⟨r0, hr0, rfl⟩ := List.mem_map.mp hr
              rw [dotV_elimAt m _ r0 x c hp1len (hlen r0 (hrestmem r0 hr0)), hd,
                hk r0 hr0]
              ring
            · intro hk r0 hr0
              have := hk _ (List.mem_map_of_mem (elimAt (smulV (entry p c)⁻¹ p) c) hr0)
              rw [dotV_elimAt m _ r0 x c hp1len (hlen r0 (hrestmem r0 hr0)), hd] at this
              linarith
          rw [rrefStep, inKer_cons]
          constructor
          · intro hk
            have hd0 : dotV p x = 0 := (hstep1.mp hk).1
            have hd1 : dotV (smulV (entry p c)⁻¹ p) x = 0 := hstep2.mp hd0
            have hker2 : inKer (rrefAux (rest.map (elimAt (smulV (entry p c)⁻¹ p) c))
                (c + 1) n).2 x :=
              hihker.mp ((hstep3 hd1).mp (hstep1.mp hk).2)
            constructor
            · rw [foldl_elim_dotV m _ _ x hp1len hzlen
                (fun ir hir => hker2 ir.2 (List.of_mem_zip hir).2)]
              exact hd1
            · exact hker2
          · intro hk
            obtain ⟨hd2, hker2⟩ := hk
            have hd1 : dotV (smulV (entry p c)⁻¹ p) x = 0 := by
              rw [foldl_elim_dotV m _ _ x hp1len hzlen
                (fun ir hir => hker2 ir.2 (List.of_mem_zip hir).2)] at hd2
              exact hd2
            refine hstep1.mpr ⟨hstep2.mpr hd1, (hstep3 hd1).mpr (hihker.mpr hker2)⟩


/-- pivotIdx fails exactly on the non-pivot columns. -/
theorem pivotIdx_eq_none_iff (pivots : List ℕ) (k : ℕ) :
    pivotIdx pivots k = none ↔ k ∉ pivots := by
  induction pivots with
  | nil => simp [pivotIdx]
  | cons p rest ih =>
      by_cases h : p = k
      · simp [pivotIdx, h]
      · cases hr : pivotIdx rest k with
        | none =>
            simp only [pivotIdx, h, if_false, hr, Option.map_none]
            simp only [List.mem_cons, not_or]
            have := ih.mp hr
            constructor
            · intro _
              exact ⟨fun hc => h hc.symm, this⟩
            · intro _
              rfl
        | some i =>
            simp only [pivotIdx, h, if_false, hr, Option.map_some]
            constructor
            · intro hc; cases hc
            · intro hc
              exfalso
              apply hc
              have : k ∈ rest := by
                by_contra hk
                rw [ih.mpr hk] at hr
                cases hr
              exact List.mem_cons_of_mem p this

/-- A successful pivotIdx points at the column inside the pivot list. -/
theorem pivotIdx_eq_some (pivots : List ℕ) (k i : ℕ)
    (h : pivotIdx pivots k = some i) :
    i < pivots.length ∧ pivots.getD i 0 = k := by
  induction pivots generalizing i with
  | nil => cases h
  | cons p rest ih =>
      by_cases hp : p = k
      · rw [pivotIdx, if_pos hp, Option.some.injEq] at h
        rw [← h]
        exact ⟨Nat.succ_pos _, hp⟩
      · rw [pivotIdx, if_neg hp] at h
        cases hr : pivotIdx rest k with
        | none => rw [hr] at h; cases h
        | some i2 =>
            rw [hr] at h
            have hii : i2 + 1 = i := by simpa using h
            obtain ⟨h1, h2⟩ := ih i2 hr
            rw [← hii]
            exact ⟨Nat.succ_lt_succ h1, by rw [List.getD_cons_succ]; exact h2⟩

/-- On a duplicate-free pivot list, pivotIdx inverts indexing. -/
theorem pivotIdx_getD (pivots : List ℕ) (hnd : pivots.Nodup) (i : ℕ)
    (hi : i < pivots.length) : pivotIdx pivots (pivots.getD i 0) = some i := by
  induction pivots generalizing i with
  | nil => cases hi
  | cons p rest ih =>
      cases i with
      | zero => rw [List.getD_cons_zero, pivotIdx, if_pos rfl]
      | succ k =>
          have hk : k < rest.length := Nat.lt_of_succ_lt_succ hi
          have hne : p ≠ rest.getD k 0 := by
            intro hc
            have : rest.getD k 0 ∈ rest := getD_mem_of_lt rest 0 k hk
            rw [← hc] at this
            exact (List.nodup_cons.mp hnd).1 this
          rw [List.getD_cons_succ, pivotIdx, if_neg hne,
            ih (List.nodup_cons.mp hnd).2 k hk]
          rfl

/-- A mapped list sum as an indexed sum. -/
theorem list_map_sum (h : ℕ → ℚ) : ∀ l : List ℕ,
    (l.map h).sum = ∑ i ∈ Finset.range l.length, h (l.getD i 0) := by
  intro l
  induction l with
  | nil => simp
  | cons a t ih =>
      rw [List.map_cons, List.sum_cons, ih, List.length_cons,
        Finset.sum_range_succ']
      simp only [List.getD_cons_succ, List.getD_cons_zero]
      ring

/-- A finite set sum over the distinct members of a list as an indexed sum. -/
theorem toFinset_sum_eq (l : List ℕ) (hnd : l.Nodup) (h : ℕ → ℚ) :
    l.toFinset.sum h = ∑ i ∈ Finset.range l.length, h (l.getD i 0) := by
  rw [List.sum_toFinset h hnd, list_map_sum]

/-- The list range as a finite set. -/
theorem toFinset_list_range (m : ℕ) : (List.range m).toFinset = Finset.range m := by
  apply Finset.ext
  intro k
  simp [List.mem_toFinset, List.mem_range, Finset.mem_range]

/-- Splitting a sum over range m into the pivot columns and the free
columns. -/
theorem sum_range_partition (m : ℕ) (pv : List ℕ) (hnd : pv.Nodup)
    (hb : ∀ p ∈ pv, p < m) (h : ℕ → ℚ) :
    ∑ k ∈ Finset.range m, h k =
      (∑ i ∈ Finset.range pv.length, h (pv.getD i 0)) +
        ∑ i ∈ Finset.range ((List.range m).filter (fun j => !(pv.contains j))).length,
          h (((List.range m).filter (fun j => !(pv.contains j))).getD i 0) := by
  have hndf : ((List.range m).filter (fun j => !(pv.contains j))).Nodup :=
    (List.nodup_range m).filter _
  have hdisj : Disjoint pv.toFinset
      ((List.range m).filter (fun j => !(pv.contains j))).toFinset := by
    rw [Finset.disjoint_left]
    intro k hk hk2
    rw [List.mem_toFinset] at hk hk2
    rw [List.mem_filter] at hk2
    have h4 := hk2.2
    simp only [Bool.not_eq_true'] at h4
    have h5 : ¬ k ∈ pv := by
      intro hc
      rw [← @List.elem_iff ℕ _ _ k pv] at hc
      have h6 : List.elem k pv = false := h4
      rw [h6] at hc
      cases hc
    exact h5 hk
  have hunion : pv.toFinset ∪
      ((List.range m).filter (fun j => !(pv.contains j))).toFinset =
      Finset.range m := by
    apply Finset.ext
    intro k
    simp only [Finset.mem_union, List.mem_toFinset, List.mem_filter,
      List.mem_range, Finset.mem_range, Bool.not_eq_true']
    constructor
    · intro hk
      rcases hk with hk | hk
      · exact hb k hk
      · exact hk.1
    · intro hk
      by_cases hkp : k ∈ pv
      · exact Or.inl hkp
      · refine Or.inr ⟨hk, ?_⟩
        cases hel : pv.contains k with
        | false => simp [hel]
        | true =>
            exfalso
            exact hkp (List.elem_iff.mp (hel : List.elem k pv = true))
  rw [← hunion, Finset.sum_union hdisj, toFinset_sum_eq pv hnd h,
    toFinset_sum_eq _ hndf h]

/-- getD on a range list is the index. -/
theorem range_getD (m k : ℕ) (h : k < m) : (List.range m).getD k 0 = k := by
  rw [getD_eq_getElem_of_lt _ 0 k (by simpa using h)]
  simp

/-- Entry of a nullspace basis vector inside the bounds. -/
theorem entry_nsVec (m : ℕ) (pv : List ℕ) (rr : List (List ℚ)) (j k : ℕ)
    (hk : k < m) :
    entry (nsVec m pv rr j) k =
      if k = j then 1
      else
        match pivotIdx pv k with
        | some i => -(entry (rr.getD i []) j)
        | none => 0 := by
  rw [nsVec, entry, getD_map_of_lt _ _ 0 0 k (by simpa using hk), range_getD m k hk]

/-- Length of a nullspace basis vector. -/
theorem nsVec_length (m : ℕ) (pv : List ℕ) (rr : List (List ℚ)) (j : ℕ) :
    (nsVec m pv rr j).length = m := by
  simp [nsVec]


/-- The reduced row echelon form of a matrix with uniform row length satisfies
the structural invariant. -/
theorem rrefOf_spec (M : List (List ℚ)) (huni : ∀ r ∈ M, r.length = ncols M) :
    RrefSpec (ncols M) (rrefOf M).1 (rrefOf M).2 :=
  (rrefAux_spec (ncols M) (ncols M) 0 M (by omega) huni
    (fun r _ j hj => absurd hj (Nat.not_lt_zero j))).1

/-- The reduced row echelon form has the same kernel as the matrix. -/
theorem rrefOf_ker (M : List (List ℚ)) (huni : ∀ r ∈ M, r.length = ncols M)
    (x : List ℚ) : inKer M x ↔ inKer (rrefOf M).2 x :=
  rrefAux_ker (ncols M) (ncols M) 0 M (by omega) huni
    (fun r _ j hj => absurd hj (Nat.not_lt_zero j)) x

/-- Membership in the free column list. -/
theorem mem_freeCols (M : List (List ℚ)) (k : ℕ) :
    k ∈ freeCols M ↔ k < ncols M ∧ k ∉ (rrefOf M).1 := by
  rw [freeCols, List.mem_filter, List.mem_range]
  constructor
  · intro h
    refine ⟨h.1, ?_⟩
    intro hc
    have h4 := h.2
    simp only [Bool.not_eq_true'] at h4
    rw [← @List.elem_iff ℕ _ _ k (rrefOf M).1] at hc
    have h6 : List.elem k (rrefOf M).1 = false := h4
    rw [h6] at hc
    cases hc
  · intro h
    refine ⟨h.1, ?_⟩
    cases hel : (rrefOf M).1.contains k with
    | false => simp [hel]
    | true =>
        exfalso
        exact h.2 (List.elem_iff.mp (hel : List.elem k (rrefOf M).1 = true))

/-- The free column list has no duplicates. -/
theorem freeCols_nodup (M : List (List ℚ)) : (freeCols M).Nodup :=
  (List.nodup_range (ncols M)).filter _

/-- There are ncols - rank free columns. -/
theorem freeCols_length (M : List (List ℚ))
    (huni : ∀ r ∈ M, r.length = ncols M) :
    (freeCols M).length = ncols M - rankQ M := by
  have hspec := rrefOf_spec M huni
  have hnd : (rrefOf M).1.Nodup := hspec.sorted.nodup
  have hperm := (List.range (ncols M)).filter_append_perm
    (fun j => (rrefOf M).1.contains j)
  have hlen := hperm.length_eq
  rw [List.length_append, List.length_range] at hlen
  have hpl : (List.filter (fun j => (rrefOf M).1.contains j)
      (List.range (ncols M))).length = (rrefOf M).1.length := by
    apply List.Perm.length_eq
    apply (List.perm_ext_iff_of_nodup ((List.nodup_range (ncols M)).filter _) hnd).mpr
    intro a
    rw [List.mem_filter, List.mem_range]
    constructor
    · intro h
      exact List.elem_iff.mp (h.2 : List.elem a (rrefOf M).1 = true)
    · intro h
      refine ⟨hspec.bounds a h, ?_⟩
      show List.elem a (rrefOf M).1 = true
      exact List.elem_iff.mpr h
  rw [show List.filter (fun x => !(rrefOf M).1.contains x) (List.range (ncols M)) =
    freeCols M from rfl] at hlen
  rw [rankQ, ← hpl]
  omega

/-- The nullspace has ncols - rank vectors. -/
theorem nullspaceQ_length (M : List (List ℚ))
    (huni : ∀ r ∈ M, r.length = ncols M) :
    (nullspaceQ M).length = ncols M - rankQ M := by
  rw [nullspaceQ, List.length_map]
  exact freeCols_length M huni


/-- For the i-th reduced row, a sum over the pivot columns weighted by the row
entries collapses to the i-th term. -/
theorem pivot_sum_collapse (m : ℕ) (pv : List ℕ) (rr : List (List ℚ))
    (hspec : RrefSpec m pv rr) (i : ℕ) (hi : i < pv.length) (g : ℕ → ℚ) :
    ∑ i2 ∈ Finset.range pv.length, entry (rr.getD i []) (pv.getD i2 0) * g i2 =
      g i := by
  rw [Finset.sum_eq_single i]
  · rw [hspec.unit i hi, one_mul]
  · intro b hb hbne
    rw [hspec.cross i b hi (Finset.mem_range.mp hb) hbne]
    ring
  · intro hc
    exact absurd (Finset.mem_range.mpr hi) hc

/-- Entry of the nullspace vector of a free column j at a free column k. -/
theorem entry_nsVec_free (M : List (List ℚ)) (j k : ℕ)
    (hk : k ∈ freeCols M) :
    entry (nsVec (ncols M) (rrefOf M).1 (rrefOf M).2 j) k =
      if k = j then 1 else 0 := by
  obtain ⟨hkm, hknp⟩ := (mem_freeCols M k).mp hk
  rw [entry_nsVec _ _ _ j k hkm]
  by_cases h : k = j
  · rw [if_pos h, if_pos h]
  · rw [if_neg h, if_neg h, (pivotIdx_eq_none_iff _ k).mpr hknp]

/-- Entry of the nullspace vector of a free column j at the i-th pivot
column. -/
theorem entry_nsVec_pivot (M : List (List ℚ))
    (huni : ∀ r ∈ M, r.length = ncols M) (j i : ℕ) (hj : j ∈ freeCols M)
    (hi : i < (rrefOf M).1.length) :
    entry (nsVec (ncols M) (rrefOf M).1 (rrefOf M).2 j) ((rrefOf M).1.getD i 0) =
      -(entry ((rrefOf M).2.getD i []) j) := by
  have hspec := rrefOf_spec M huni
  have hkp : (rrefOf M).1.getD i 0 ∈ (rrefOf M).1 := getD_mem_of_lt _ 0 i hi
  have hkm : (rrefOf M).1.getD i 0 < ncols M := hspec.bounds _ hkp
  have hne : (rrefOf M).1.getD i 0 ≠ j := by
    intro hc
    exact ((mem_freeCols M j).mp hj).2 (hc ▸ hkp)
  rw [entry_nsVec _ _ _ j _ hkm, if_neg hne,
    pivotIdx_getD _ hspec.sorted.nodup i hi]

/-- A dot product of length-m vectors split into pivot and free column
parts. -/
theorem dotV_split (M : List (List ℚ)) (huni : ∀ r ∈ M, r.length = ncols M)
    (r v : List ℚ) (hr : r.length = ncols M) (hv : v.length = ncols M) :
    dotV r v = (∑ i2 ∈ Finset.range (rrefOf M).1.length,
        entry r ((rrefOf M).1.getD i2 0) * entry v ((rrefOf M).1.getD i2 0)) +
      ∑ i2 ∈ Finset.range (freeCols M).length,
        entry r ((freeCols M).getD i2 0) * entry v ((freeCols M).getD i2 0) := by
  rw [dotV_eq_sum (ncols M) r v hr hv]
  have hspec := rrefOf_spec M huni
  exact sum_range_partition (ncols M) (rrefOf M).1 hspec.sorted.nodup hspec.bounds _

/-- Distinct indices give distinct free columns. -/
theorem freeCols_getD_inj (M : List (List ℚ)) (i i2 : ℕ)
    (hi : i < (freeCols M).length) (hi2 : i2 < (freeCols M).length)
    (h : (freeCols M).getD i 0 = (freeCols M).getD i2 0) : i = i2 := by
  rw [getD_eq_getElem_of_lt _ 0 i hi, getD_eq_getElem_of_lt _ 0 i2 hi2] at h
  exact (List.Nodup.getElem_inj_iff (freeCols_nodup M)).mp h

/-- Every nullspace basis vector lies in the kernel of the matrix. -/
theorem nsVec_inKer (M : List (List ℚ)) (huni : ∀ r ∈ M, r.length = ncols M)
    (j : ℕ) (hj : j ∈ freeCols M) :
    inKer M (nsVec (ncols M) (rrefOf M).1 (rrefOf M).2 j) := by
  have hspec := rrefOf_spec M huni
  rw [rrefOf_ker M huni]
  intro r hr
  obtain ⟨i, hi, hre⟩ := List.mem_iff_getElem.mp hr
  have hrg : r = (rrefOf M).2.getD i [] := by
    rw [getD_eq_getElem_of_lt _ [] i hi, hre]
  have hip : i < (rrefOf M).1.length := by rw [hspec.lenEq]; exact hi
  have hrlen : r.length = ncols M := hspec.rowLen r hr
  have hvlen : (nsVec (ncols M) (rrefOf M).1 (rrefOf M).2 j).length = ncols M :=
    nsVec_length _ _ _ _
  rw [dotV_split M huni _ _ hrlen hvlen]
  have hpart1 : (∑ i2 ∈ Finset.range (rrefOf M).1.length,
      entry r ((rrefOf M).1.getD i2 0) *
        entry (nsVec (ncols M) (rrefOf M).1 (rrefOf M).2 j)
          ((rrefOf M).1.getD i2 0)) = -(entry ((rrefOf M).2.getD i []) j) := by
    have hcongr : ∀ i2 ∈ Finset.range (rrefOf M).1.length,
        entry r ((rrefOf M).1.getD i2 0) *
          entry (nsVec (ncols M) (rrefOf M).1 (rrefOf M).2 j)
            ((rrefOf M).1.getD i2 0) =
        entry ((rrefOf M).2.getD i []) ((rrefOf M).1.getD i2 0) *
          (-(entry ((rrefOf M).2.getD i2 []) j)) := by
      intro i2 hi2
      rw [entry_nsVec_pivot M huni j i2 hj (Finset.mem_range.mp hi2), hrg]
    rw [Finset.sum_congr rfl hcongr,
      pivot_sum_collapse (ncols M) (rrefOf M).1 (rrefOf M).2 hspec i hip
        (fun i2 => -(entry ((rrefOf M).2.getD i2 []) j))]
  obtain ⟨i0, hi0, hi0e⟩ := List.mem_iff_getElem.mp hj
  have hi0g : (freeCols M).getD i0 0 = j := by
    rw [getD_eq_getElem_of_lt _ 0 i0 hi0, hi0e]
  have hpart2 : (∑ i2 ∈ Finset.range (freeCols M).length,
      entry r ((freeCols M).getD i2 0) *
        entry (nsVec (ncols M) (rrefOf M).1 (rrefOf M).2 j)
          ((freeCols M).getD i2 0)) = entry r j := by
    rw [Finset.sum_eq_single i0]
    · rw [hi0g, entry_nsVec_free M j j hj, if_pos rfl, mul_one]
    · intro b hb hbne
      have hbf : (freeCols M).getD b 0 ∈ freeCols M :=
        getD_mem_of_lt _ 0 b (Finset.mem_range.mp hb)
      rw [entry_nsVec_free M j _ hbf, if_neg, mul_zero]
      intro hc
      exact hbne (freeCols_getD_inj M b i0 (Finset.mem_range.mp hb) hi0
        (by rw [hc, hi0g]))
    · intro hc
      exact absurd (Finset.mem_range.mpr hi0) hc
  rw [hpart1, hpart2, hrg]
  ring

/-- Facts about each member of the nullspace: length m, lies in the
kernel. -/
theorem nullspaceQ_mem_facts (M : List (List ℚ))
    (huni : ∀ r ∈ M, r.length = ncols M) :
    ∀ v ∈ nullspaceQ M, v.length = ncols M ∧ inKer M v := by
  intro v hv
  obtain ⟨j, hj, rfl⟩ := List.mem_map.mp hv
  exact ⟨nsVec_length _ _ _ _, nsVec_inKer M huni j hj⟩

/-- Indexing the nullspace list. -/
theorem nullspaceQ_getD (M : List (List ℚ)) (i : ℕ)
    (hi : i < (freeCols M).length) :
    (nullspaceQ M).getD i [] =
      nsVec (ncols M) (rrefOf M).1 (rrefOf M).2 ((freeCols M).getD i 0) :=
  getD_map_of_lt _ _ 0 [] i hi

/-- The coordinates of the nullspace vectors at the free columns form an
identity pattern. -/
theorem nullspaceQ_coords (M : List (List ℚ)) (i i2 : ℕ)
    (hi : i < (freeCols M).length) (hi2 : i2 < (freeCols M).length) :
    entry ((nullspaceQ M).getD i []) ((freeCols M).getD i2 0) =
      if i2 = i then 1 else 0 := by
  rw [nullspaceQ_getD M i hi,
    entry_nsVec_free M _ _ (getD_mem_of_lt _ 0 i2 hi2)]
  by_cases h : i2 = i
  · rw [if_pos h, if_pos (by rw [h])]
  · rw [if_neg h, if_neg (fun hc => h (freeCols_getD_inj M i2 i hi2 hi hc))]


/-- The nullspace vectors are linearly independent in function space. -/
theorem nullspaceQ_independent (M : List (List ℚ)) :
    LinearIndependent ℚ (fun i : Fin (nullspaceQ M).length =>
      toF (ncols M) ((nullspaceQ M).getD i [])) := by
  have hfl : (nullspaceQ M).length = (freeCols M).length := List.length_map _ _
  rw [Fintype.linearIndependent_iff]
  intro g hsum i
  have hifr : (i : ℕ) < (freeCols M).length := by rw [← hfl]; exact i.isLt
  have hbound : (freeCols M).getD i 0 < ncols M :=
    ((mem_freeCols M _).mp (getD_mem_of_lt _ 0 i hifr)).1
  have hcoord := congrFun hsum ⟨(freeCols M).getD i 0, hbound⟩
  rw [Finset.sum_apply] at hcoord
  rw [Finset.sum_eq_single i] at hcoord
  · have : g i * entry ((nullspaceQ M).getD (i : ℕ) [])
        ((freeCols M).getD (i : ℕ) 0) = 0 := hcoord
    rw [nullspaceQ_coords M i i hifr hifr, if_pos rfl, mul_one] at this
    exact this
  · intro b _ hbne
    have hbfr : (b : ℕ) < (freeCols M).length := by rw [← hfl]; exact b.isLt
    have : (g b • toF (ncols M) ((nullspaceQ M).getD (b : ℕ) []))
        ⟨(freeCols M).getD (i : ℕ) 0, hbound⟩ =
        g b * entry ((nullspaceQ M).getD (b : ℕ) [])
          ((freeCols M).getD (i : ℕ) 0) := rfl
    rw [this, nullspaceQ_coords M b i hbfr hifr,
      if_neg (fun hc => hbne (Fin.ext hc).symm), mul_zero]
  · intro hc
    exact absurd (Finset.mem_univ i) hc

/-- Every length-m kernel vector is the coordinate combination of the
nullspace vectors. -/
theorem nullspaceQ_spans (M : List (List ℚ))
    (huni : ∀ r ∈ M, r.length = ncols M) (x : List ℚ)
    (hx : x.length = ncols M) (hker : inKer M x) :
    toF (ncols M) x = ∑ i ∈ Finset.range (freeCols M).length,
      entry x ((freeCols M).getD i 0) • toF (ncols M) ((nullspaceQ M).getD i []) := by
  have hspec := rrefOf_spec M huni
  have hkr : inKer (rrefOf M).2 x := (rrefOf_ker M huni x).mp hker
  funext kk
  rw [Finset.sum_apply]
  have hterm : ∀ i ∈ Finset.range (freeCols M).length,
      (entry x ((freeCols M).getD i 0) • toF (ncols M) ((nullspaceQ M).getD i [])) kk =
        entry x ((freeCols M).getD i 0) * entry ((nullspaceQ M).getD i []) (kk : ℕ) :=
    fun _ _ => rfl
  rw [Finset.sum_congr rfl hterm]
  by_cases hkp : (kk : ℕ) ∈ (rrefOf M).1
  · obtain ⟨ip, hip, hipe⟩ := List.mem_iff_getElem.mp hkp
    have hipg : (rrefOf M).1.getD ip 0 = (kk : ℕ) := by
      rw [getD_eq_getElem_of_lt _ 0 ip hip, hipe]
    have hiprr : ip < (rrefOf M).2.length := by rw [← hspec.lenEq]; exact hip
    have hrowmem : (rrefOf M).2.getD ip [] ∈ (rrefOf M).2 :=
      getD_mem_of_lt _ [] ip hiprr
    have hrlen : ((rrefOf M).2.getD ip []).length = ncols M :=
      hspec.rowLen _ hrowmem
    have hdot := hkr _ hrowmem
    rw [dotV_split M huni _ x hrlen hx] at hdot
    rw [pivot_sum_collapse (ncols M) (rrefOf M).1 (rrefOf M).2 hspec ip hip
      (fun i2 => entry x ((rrefOf M).1.getD i2 0))] at hdot
    have hrw : ∀ i ∈ Finset.range (freeCols M).length,
        entry x ((freeCols M).getD i 0) *
          entry ((nullspaceQ M).getD i []) (kk : ℕ) =
        -(entry ((rrefOf M).2.getD ip []) ((freeCols M).getD i 0) *
          entry x ((freeCols M).getD i 0)) := by
      intro i hi3
      have hifr : i < (freeCols M).length := Finset.mem_range.mp hi3
      rw [nullspaceQ_getD M i hifr, ← hipg,
        entry_nsVec_pivot M huni _ ip (getD_mem_of_lt _ 0 i hifr) hip]
      ring
    rw [Finset.sum_congr rfl hrw, Finset.sum_neg_distrib]
    have hlhs : toF (ncols M) x kk = entry x ((rrefOf M).1.getD ip 0) := by
      rw [hipg]
      rfl
    rw [hlhs]
    linarith
  · have hkf : (kk : ℕ) ∈ freeCols M := (mem_freeCols M _).mpr ⟨kk.isLt, hkp⟩
    obtain ⟨i0, hi0, hi0e⟩ := List.mem_iff_getElem.mp hkf
    have hi0g : (freeCols M).getD i0 0 = (kk : ℕ) := by
      rw [getD_eq_getElem_of_lt _ 0 i0 hi0, hi0e]
    rw [Finset.sum_eq_single i0]
    · rw [hi0g, ← hi0g, nullspaceQ_coords M i0 i0 hi0 hi0, if_pos rfl, mul_one,
        hi0g]
      rfl
    · intro b hb hbne
      have hbfr : b < (freeCols M).length := Finset.mem_range.mp hb
      rw [← hi0g, nullspaceQ_coords M b i0 hbfr hi0,
        if_neg (fun hc => hbne hc.symm), mul_zero]
    · intro hc
      exact absurd (Finset.mem_range.mpr hi0) hc


/-- setL of the empty list. -/
theorem setL_nil (m : ℕ) : setL m [] = ∅ := by
  apply Set.ext
  intro x
  simp [setL]

/-- setL of a cons. -/
theorem setL_cons (m : ℕ) (a : List ℚ) (l : List (List ℚ)) :
    setL m (a :: l) = insert (toF m a) (setL m l) := by
  apply Set.ext
  intro x
  simp [setL]

/-- setL of an append. -/
theorem setL_append (m : ℕ) (l1 l2 : List (List ℚ)) :
    setL m (l1 ++ l2) = setL m l1 ∪ setL m l2 := by
  apply Set.ext
  intro x
  simp [setL]

/-- The Gram-Schmidt pass keeps the vector length. -/
theorem gsReduce_length (m : ℕ) : ∀ acc v, (∀ e ∈ acc, e.length = m) →
    v.length = m → (gsReduce acc v).length = m := by
  intro acc
  induction acc with
  | nil => intro v _ hv; exact hv
  | cons e acc ih =>
      intro v hacc hv
      rw [gsReduce, List.foldl_cons]
      have h1 : (vsub v (smulV (dotV v e / dotV e e) e)).length = m := by
        rw [vsub_length, smulV_length, hv, hacc e (List.mem_cons_self e acc),
          Nat.min_self]
      exact ih _ (fun x hx => hacc x (List.mem_cons_of_mem _ hx)) h1

/-- The Gram-Schmidt pass leaves the dot product with a vector orthogonal to
the whole basis unchanged. -/
theorem gsReduce_dot_preserved (m : ℕ) : ∀ acc v w,
    (∀ e ∈ acc, e.length = m) → v.length = m →
    (∀ e ∈ acc, dotV e w = 0) →
    dotV (gsReduce acc v) w = dotV v w := by
  intro acc
  induction acc with
  | nil => intro v w _ _ _; rfl
  | cons e acc ih =>
      intro v w hacc hv hz
      rw [gsReduce, List.foldl_cons]
      have hel : e.length = m := hacc e (List.mem_cons_self e acc)
      have h1 : (vsub v (smulV (dotV v e / dotV e e) e)).length = m := by
        rw [vsub_length, smulV_length, hv, hel, Nat.min_self]
      rw [show List.foldl (fun u e => vsub u (smulV (dotV u e / dotV e e) e))
          (vsub v (smulV (dotV v e / dotV e e) e)) acc =
          gsReduce acc (vsub v (smulV (dotV v e / dotV e e) e)) from rfl,
        ih _ w (fun x hx => hacc x (List.mem_cons_of_mem _ hx)) h1
          (fun x hx => hz x (List.mem_cons_of_mem _ hx)),
        dotV_vsub_left v _ w (by rw [smulV_length, hv, hel]),
        dotV_smulV_left, hz e (List.mem_cons_self e acc)]
      ring

/-- The Gram-Schmidt pass produces a vector orthogonal to the whole
accumulated basis. -/
theorem gsReduce_orth (m : ℕ) : ∀ acc v, (∀ e ∈ acc, e.length = m) →
    v.length = m → List.Pairwise (fun a b => dotV a b = 0) acc →
    (∀ e ∈ acc, isZeroVec e = false) →
    ∀ e ∈ acc, dotV (gsReduce acc v) e = 0 := by
  intro acc
  induction acc with
  | nil => intro v _ _ _ _ e he; cases he
  | cons e0 acc ih =>
      intro v hacc hv hpw hnz e he
      have he0l : e0.length = m := hacc e0 (List.mem_cons_self e0 acc)
      have hv1 : (vsub v (smulV (dotV v e0 / dotV e0 e0) e0)).length = m := by
        rw [vsub_length, smulV_length, hv, he0l, Nat.min_self]
      rw [gsReduce, List.foldl_cons,
        show List.foldl (fun u e => vsub u (smulV (dotV u e / dotV e e) e))
          (vsub v (smulV (dotV v e0 / dotV e0 e0) e0)) acc =
          gsReduce acc (vsub v (smulV (dotV v e0 / dotV e0 e0) e0)) from rfl]
      rcases List.mem_cons.mp he with h3 | h3
      · subst h3
        have he0nz : dotV e e ≠ 0 := by
          intro hc
          rw [dotV_self_eq_zero_iff e] at hc
          rw [hnz e (List.mem_cons_self e acc)] at hc
          cases hc
        rw [gsReduce_dot_preserved m acc _ e
            (fun x hx => hacc x (List.mem_cons_of_mem _ hx)) hv1
            (fun x hx => dotV_comm x e ▸ (List.pairwise_cons.mp hpw).1 x hx),
          dotV_vsub_left v _ e (by rw [smulV_length, hv, he0l]),
          dotV_smulV_left, div_mul_cancel₀ _ he0nz]
        ring
      · exact ih _ (fun x hx => hacc x (List.mem_cons_of_mem _ hx)) hv1
          (List.pairwise_cons.mp hpw).2
          (fun x hx => hnz x (List.mem_cons_of_mem _ hx)) e h3

/-- The Gram-Schmidt pass subtracts a vector of the span of the accumulated
basis. -/
theorem gsReduce_decomp (m : ℕ) : ∀ acc v, (∀ e ∈ acc, e.length = m) →
    v.length = m →
    ∃ w ∈ Submodule.span ℚ (setL m acc), toF m (gsReduce acc v) = toF m v - w := by
  intro acc
  induction acc with
  | nil =>
      intro v _ _
      exact ⟨0, Submodule.zero_mem _, by rw [gsReduce, List.foldl_nil, sub_zero]⟩
  | cons e acc ih =>
      intro v hacc hv
      have hel : e.length = m := hacc e (List.mem_cons_self e acc)
      have hv1 : (vsub v (smulV (dotV v e / dotV e e) e)).length = m := by
        rw [vsub_length, smulV_length, hv, hel, Nat.min_self]
      obtain ⟨w, hw, hdec⟩ := ih (vsub v (smulV (dotV v e / dotV e e) e))
        (fun x hx => hacc x (List.mem_cons_of_mem _ hx)) hv1
      refine ⟨(dotV v e / dotV e e) • toF m e + w, ?_, ?_⟩
      · apply Submodule.add_mem
        · apply Submodule.smul_mem
          apply Submodule.subset_span
          rw [setL_cons]
          exact Set.mem_insert _ _
        · exact Submodule.span_mono (by rw [setL_cons]; exact Set.subset_insert _ _) hw
      · rw [gsReduce, List.foldl_cons,
          show List.foldl (fun u e => vsub u (smulV (dotV u e / dotV e e) e))
            (vsub v (smulV (dotV v e / dotV e e) e)) acc =
            gsReduce acc (vsub v (smulV (dotV v e / dotV e e) e)) from rfl,
          hdec, toF_vsub m v _ hv (by rw [smulV_length, hel]), toF_smulV]
        abel


/-- Exchanging a generator modulo the other summand of a sup of spans. -/
theorem span_sup_exchange (m : ℕ) (P : Submodule ℚ (Fin m → ℚ))
    (a b w : Fin m → ℚ) (hw : w ∈ P) (h : a = b - w) :
    P ⊔ Submodule.span ℚ {a} = P ⊔ Submodule.span ℚ {b} := by
  apply le_antisymm
  · rw [sup_le_iff]
    refine ⟨le_sup_left, ?_⟩
    rw [Submodule.span_singleton_le_iff_mem]
    have hb : b ∈ P ⊔ Submodule.span ℚ {b} :=
      Submodule.mem_sup_right (Submodule.mem_span_singleton_self b)
    have hwm : w ∈ P ⊔ Submodule.span ℚ {b} := Submodule.mem_sup_left hw
    rw [h]
    exact Submodule.sub_mem _ hb hwm
  · rw [sup_le_iff]
    refine ⟨le_sup_left, ?_⟩
    rw [Submodule.span_singleton_le_iff_mem]
    have ha : a ∈ P ⊔ Submodule.span ℚ {a} :=
      Submodule.mem_sup_right (Submodule.mem_span_singleton_self a)
    have hwm : w ∈ P ⊔ Submodule.span ℚ {a} := Submodule.mem_sup_left hw
    have hb : b = a + w := by rw [h]; abel
    rw [hb]
    exact Submodule.add_mem _ ha hwm

/-- The full invariant of the orthogonalization loop: the output extends the
accumulated orthogonal family and spans the sup of the accumulated span and
the input span. -/
theorem orthogonalizeQ_spec (m : ℕ) : ∀ input acc : List (List ℚ),
    (∀ e ∈ acc, e.length = m) → (∀ e ∈ input, e.length = m) →
    List.Pairwise (fun a b => dotV a b = 0) acc →
    (∀ e ∈ acc, isZeroVec e = false) →
    (∀ e ∈ orthogonalizeQ acc input, e.length = m) ∧
      List.Pairwise (fun a b => dotV a b = 0) (orthogonalizeQ acc input) ∧
      (∀ e ∈ orthogonalizeQ acc input, isZeroVec e = false) ∧
      Submodule.span ℚ (setL m (orthogonalizeQ acc input)) =
        Submodule.span ℚ (setL m acc) ⊔ Submodule.span ℚ (setL m input) := by
  intro input
  induction input with
  | nil =>
      intro acc hacc _ hpw hnz
      refine ⟨hacc, hpw, hnz, ?_⟩
      rw [orthogonalizeQ, setL_nil, Submodule.span_empty, sup_bot_eq]
  | cons v rest ih =>
      intro acc hacc hinp hpw hnz
      have hv : v.length = m := hinp v (List.mem_cons_self v rest)
      have hrest : ∀ e ∈ rest, e.length = m :=
        fun e he => hinp e (List.mem_cons_of_mem _ he)
      have hulen : (gsReduce acc v).length = m := gsReduce_length m acc v hacc hv
      obtain ⟨w, hwmem, hdec⟩ := gsReduce_decomp m acc v hacc hv
      by_cases hz : isZeroVec (gsReduce acc v) = true
      · rw [orthogonalizeQ, if_pos hz]
        obtain ⟨h1, h2, h3, h4⟩ := ih acc hacc hrest hpw hnz
        refine ⟨h1, h2, h3, ?_⟩
        have hvmem : toF m v ∈ Submodule.span ℚ (setL m acc) := by
          have h0 : toF m (gsReduce acc v) = 0 := (toF_eq_zero_iff m _ hulen).mpr hz
          rw [h0] at hdec
          rw [sub_eq_zero.mp hdec.symm]
          exact hwmem
        have habs : Submodule.span ℚ (setL m acc) ⊔
            Submodule.span ℚ {toF m v} = Submodule.span ℚ (setL m acc) := by
          rw [sup_eq_left, Submodule.span_singleton_le_iff_mem]
          exact hvmem
        rw [h4, setL_cons, Submodule.span_insert, ← sup_assoc, habs]
      · rw [orthogonalizeQ, if_neg hz]
        have hunz : isZeroVec (gsReduce acc v) = false := by
          cases h : isZeroVec (gsReduce acc v)
          · rfl
          · exact absurd h hz
        have horthu : ∀ e ∈ acc, dotV (gsReduce acc v) e = 0 :=
          gsReduce_orth m acc v hacc hv hpw hnz
        have hacc2 : ∀ e ∈ acc ++ [gsReduce acc v], e.length = m := by
          intro e he
          rcases List.mem_append.mp he with h3 | h3
          · exact hacc e h3
          · rw [List.mem_singleton.mp h3]
            exact hulen
        have hpw2 : List.Pairwise (fun a b => dotV a b = 0)
            (acc ++ [gsReduce acc v]) := by
          rw [List.pairwise_append]
          refine ⟨hpw, List.pairwise_singleton _ _, ?_⟩
          intro a ha b hb
          rw [List.mem_singleton.mp hb]
          rw [dotV_comm]
          exact horthu a ha
        have hnz2 : ∀ e ∈ acc ++ [gsReduce acc v], isZeroVec e = false := by
          intro e he
          rcases List.mem_append.mp he with h3 | h3
          · exact hnz e h3
          · rw [List.mem_singleton.mp h3]
            exact hunz
        obtain ⟨h1, h2, h3, h4⟩ := ih (acc ++ [gsReduce acc v]) hacc2 hrest hpw2 hnz2
        refine ⟨h1, h2, h3, ?_⟩
        rw [h4, setL_append, Submodule.span_union, setL_cons, setL_nil,
          ← Set.singleton_def,
          span_sup_exchange m (Submodule.span ℚ (setL m acc))
            (toF m (gsReduce acc v)) (toF m v) w hwmem hdec,
          setL_cons, Submodule.span_insert, ← sup_assoc]


/-- dotF is additive in its left argument over finite sums. -/
theorem dotF_sum_left {m : ℕ} {ι : Type _} (s : Finset ι) (f : ι → (Fin m → ℚ))
    (w : Fin m → ℚ) : dotF (∑ j ∈ s, f j) w = ∑ j ∈ s, dotF (f j) w := by
  rw [dotF]
  have h1 : ∀ k : Fin m, (∑ j ∈ s, f j) k * w k = ∑ j ∈ s, f j k * w k := by
    intro k
    rw [Finset.sum_apply, Finset.sum_mul]
  rw [Finset.sum_congr rfl (fun k _ => h1 k), Finset.sum_comm]
  rfl

/-- dotF scales in its left argument. -/
theorem dotF_smul_left {m : ℕ} (c : ℚ) (u w : Fin m → ℚ) :
    dotF (c • u) w = c * dotF u w := by
  rw [dotF, dotF, Finset.mul_sum]
  apply Finset.sum_congr rfl
  intro k _
  show c * u k * w k = c * (u k * w k)
  ring

/-- The range of the indexed family of a vector list is its setL. -/
theorem range_fam_eq_setL (m : ℕ) (l : List (List ℚ)) :
    Set.range (fun i : Fin l.length => toF m (l.getD i [])) = setL m l := by
  apply Set.ext
  intro x
  constructor
  · intro hx
    obtain ⟨i, rfl⟩ := hx
    rw [setL, Set.mem_setOf_eq]
    apply List.mem_map_of_mem
    exact getD_mem_of_lt l [] i i.isLt
  · intro hx
    rw [setL, Set.mem_setOf_eq, List.mem_map] at hx
    obtain ⟨e, he, rfl⟩ := hx
    obtain ⟨i, hi, hie⟩ := List.mem_iff_getElem.mp he
    refine ⟨⟨i, hi⟩, ?_⟩
    show toF m (l.getD i []) = toF m e
    rw [getD_eq_getElem_of_lt l [] i hi, hie]

/-- A pairwise orthogonal family of nonzero length-m vectors is linearly
independent in function space. -/
theorem orth_family_independent (m : ℕ) (l : List (List ℚ))
    (hlen : ∀ e ∈ l, e.length = m)
    (hpw : List.Pairwise (fun a b => dotV a b = 0) l)
    (hnz : ∀ e ∈ l, isZeroVec e = false) :
    LinearIndependent ℚ (fun i : Fin l.length => toF m (l.getD i [])) := by
  rw [Fintype.linearIndependent_iff]
  intro g hsum i
  have hdot := congrArg (fun f => dotF f (toF m (l.getD i []))) hsum
  simp only at hdot
  rw [dotF_sum_left] at hdot
  have hz : dotF (0 : Fin m → ℚ) (toF m (l.getD i [])) = 0 := by
    rw [dotF]
    apply Finset.sum_eq_zero
    intro k _
    show (0 : Fin m → ℚ) k * toF m (l.getD (i : ℕ) []) k = 0
    rw [show (0 : Fin m → ℚ) k = 0 from rfl]
    ring
  rw [hz] at hdot
  have hpairs : ∀ j : Fin l.length, j ≠ i →
      dotV (l.getD (j : ℕ) []) (l.getD (i : ℕ) []) = 0 := by
    intro j hj
    have hpg := List.pairwise_iff_getElem.mp hpw
    rcases Nat.lt_or_ge (j : ℕ) (i : ℕ) with h | h
    · have := hpg j i j.isLt i.isLt h
      rw [getD_eq_getElem_of_lt l [] j j.isLt, getD_eq_getElem_of_lt l [] i i.isLt]
      exact this
    · have hij : (i : ℕ) < (j : ℕ) := by
        rcases Nat.lt_or_eq_of_le h with h2 | h2
        · exact h2
        · exact absurd (Fin.ext h2.symm) hj
      have := hpg i j i.isLt j.isLt hij
      rw [getD_eq_getElem_of_lt l [] j j.isLt, getD_eq_getElem_of_lt l [] i i.isLt]
      rw [dotV_comm]
      exact this
  rw [Finset.sum_eq_single i] at hdot
  · rw [dotF_smul_left, dotF_toF m _ _ (hlen _ (getD_mem_of_lt l [] i i.isLt))
      (hlen _ (getD_mem_of_lt l [] i i.isLt))] at hdot
    have hself : dotV (l.getD (i : ℕ) []) (l.getD (i : ℕ) []) ≠ 0 := by
      intro hc
      rw [dotV_self_eq_zero_iff] at hc
      rw [hnz _ (getD_mem_of_lt l [] i i.isLt)] at hc
      cases hc
    rcases mul_eq_zero.mp hdot with h | h
    · exact h
    · exact absurd h hself
  · intro b _ hbne
    rw [dotF_smul_left, dotF_toF m _ _ (hlen _ (getD_mem_of_lt l [] b b.isLt))
      (hlen _ (getD_mem_of_lt l [] i i.isLt)), hpairs b hbne]
    ring
  · intro hc
    exact absurd (Finset.mem_univ i) hc

/-- The count of the orthogonalization of a family tf ++ af whose tail af is
independent and whose head tf lies in the span of the tail: exactly the tail
count survives. -/
theorem orthogonalize_count (m : ℕ) (tf af : List (List ℚ))
    (htlen : ∀ e ∈ tf, e.length = m) (haflen : ∀ e ∈ af, e.length = m)
    (hindep : LinearIndependent ℚ (fun i : Fin af.length => toF m (af.getD i [])))
    (htf_sub : ∀ e ∈ tf, toF m e ∈ Submodule.span ℚ (setL m af)) :
    (orthogonalizeQ [] (tf ++ af)).length = af.length := by
  have hin : ∀ e ∈ tf ++ af, e.length = m := by
    intro e he
    rcases List.mem_append.mp he with h | h
    · exact htlen e h
    · exact haflen e h
  obtain ⟨h1, h2, h3, h4⟩ := orthogonalizeQ_spec m (tf ++ af) []
    (fun e he => absurd he (List.not_mem_nil e)) hin List.Pairwise.nil
    (fun e he => absurd he (List.not_mem_nil e))
  have hspan : Submodule.span ℚ (setL m (orthogonalizeQ [] (tf ++ af))) =
      Submodule.span ℚ (setL m af) := by
    rw [h4, setL_nil, Submodule.span_empty, bot_sup_eq, setL_append,
      Submodule.span_union]
    have hle : Submodule.span ℚ (setL m tf) ≤ Submodule.span ℚ (setL m af) := by
      rw [Submodule.span_le]
      intro x hx
      rw [setL, Set.mem_setOf_eq, List.mem_map] at hx
      obtain ⟨e, he, rfl⟩ := hx
      exact htf_sub e he
    rw [sup_eq_right.mpr hle]
  have hiout := orth_family_independent m (orthogonalizeQ [] (tf ++ af)) h1 h2 h3
  have hfr1 := finrank_span_eq_card hiout
  have hfr2 := finrank_span_eq_card hindep
  rw [range_fam_eq_setL] at hfr1 hfr2
  rw [hspan, hfr2] at hfr1
  simpa using hfr1.symm

/-- An independent family lying inside the span of af has at most af.length
members. -/
theorem indep_card_le (m : ℕ) (tf af : List (List ℚ))
    (hindep_tf : LinearIndependent ℚ (fun i : Fin tf.length => toF m (tf.getD i [])))
    (hindep_af : LinearIndependent ℚ (fun i : Fin af.length => toF m (af.getD i [])))
    (htf_sub : ∀ e ∈ tf, toF m e ∈ Submodule.span ℚ (setL m af)) :
    tf.length ≤ af.length := by
  have hfr1 := finrank_span_eq_card hindep_tf
  have hfr2 := finrank_span_eq_card hindep_af
  rw [range_fam_eq_setL] at hfr1 hfr2
  have hle : Submodule.span ℚ (setL m tf) ≤ Submodule.span ℚ (setL m af) := by
    rw [Submodule.span_le]
    intro x hx
    rw [setL, Set.mem_setOf_eq, List.mem_map] at hx
    obtain ⟨e, he, rfl⟩ := hx
    exact htf_sub e he
  have := Submodule.finrank_mono hle
  rw [hfr1, hfr2] at this
  simpa using this


/-- Vertex membership after add_node. -/
theorem add_node_mem (G : Graph) (u v : ℕ) :
    v ∈ (G.add_node u).vertices ↔ v ∈ G.vertices ∨ v = u := by
  rw [Graph.add_node]
  by_cases h : u ∈ G.vertices
  · rw [if_pos h]
    constructor
    · intro h2; exact Or.inl h2
    · intro h2
      rcases h2 with h2 | h2
      · exact h2
      · rw [h2]; exact h
  · rw [if_neg h]
    simp

/-- add_node keeps the vertex list duplicate-free. -/
theorem add_node_nodup (G : Graph) (u : ℕ) (h : G.vertices.Nodup) :
    (G.add_node u).vertices.Nodup := by
  rw [Graph.add_node]
  by_cases h2 : u ∈ G.vertices
  · rw [if_pos h2]; exact h
  · rw [if_neg h2]
    simp [List.nodup_append, h, h2]

/-- Vertex membership after add_edge_pair. -/
theorem add_edge_pair_mem (G : Graph) (a b v : ℕ) :
    v ∈ (G.add_edge_pair a b).vertices ↔ v ∈ G.vertices ∨ v = a ∨ v = b := by
  rw [Graph.add_edge_pair]
  by_cases h : edgeMem (a, b) ((G.add_node a).add_node b).edges
  · rw [if_pos h]
    rw [add_node_mem, add_node_mem]
    tauto
  · rw [if_neg h]
    show v ∈ ((G.add_node a).add_node b).vertices ↔ _
    rw [add_node_mem, add_node_mem]
    tauto

/-- add_edge_pair keeps the vertex list duplicate-free. -/
theorem add_edge_pair_nodup (G : Graph) (a b : ℕ) (h : G.vertices.Nodup) :
    (G.add_edge_pair a b).vertices.Nodup := by
  rw [Graph.add_edge_pair]
  by_cases h2 : edgeMem (a, b) ((G.add_node a).add_node b).edges
  · rw [if_pos h2]
    exact add_node_nodup _ b (add_node_nodup G a h)
  · rw [if_neg h2]
    exact add_node_nodup _ b (add_node_nodup G a h)

/-- add_node does not change the edges. -/
theorem add_node_edges (G : Graph) (u : ℕ) : (G.add_node u).edges = G.edges := by
  rw [Graph.add_node]
  by_cases h : u ∈ G.vertices
  · rw [if_pos h]
  · rw [if_neg h]

/-- add_edge_pair keeps every existing edge. -/
theorem add_edge_pair_edges_mono (G : Graph) (a b : ℕ) (e : ℕ × ℕ)
    (h : e ∈ G.edges) : e ∈ (G.add_edge_pair a b).edges := by
  rw [Graph.add_edge_pair]
  by_cases h2 : edgeMem (a, b) ((G.add_node a).add_node b).edges
  · rw [if_pos h2, add_node_edges, add_node_edges]
    exact h
  · rw [if_neg h2]
    show e ∈ ((G.add_node a).add_node b).edges ++ [(a, b)]
    rw [add_node_edges, add_node_edges]
    exact List.mem_append_left _ h

/-- Edges after add_edge_pair come from the graph or are the new pair. -/
theorem add_edge_pair_edges_sub (G : Graph) (a b : ℕ) (e : ℕ × ℕ)
    (h : e ∈ (G.add_edge_pair a b).edges) : e ∈ G.edges ∨ e = (a, b) := by
  rw [Graph.add_edge_pair] at h
  by_cases h2 : edgeMem (a, b) ((G.add_node a).add_node b).edges
  · rw [if_pos h2, add_node_edges, add_node_edges] at h
    exact Or.inl h
  · rw [if_neg h2] at h
    have h4 : e ∈ ((G.add_node a).add_node b).edges ++ [(a, b)] := h
    rw [add_node_edges, add_node_edges] at h4
    rcases List.mem_append.mp h4 with h3 | h3
    · exact Or.inl h3
    · exact Or.inr (List.mem_singleton.mp h3)

/-- After add_edge_pair the pair is present in one of its orientations. -/
theorem add_edge_pair_present (G : Graph) (a b : ℕ) :
    (a, b) ∈ (G.add_edge_pair a b).edges ∨ (b, a) ∈ (G.add_edge_pair a b).edges := by
  rw [Graph.add_edge_pair]
  by_cases h2 : edgeMem (a, b) ((G.add_node a).add_node b).edges
  · rw [if_pos h2]
    rw [edgeMem, List.any_eq_true] at h2
    obtain ⟨f, hf, hor⟩ := h2
    rw [Bool.or_eq_true, Bool.and_eq_true, Bool.and_eq_true] at hor
    rcases hor with ⟨h4, h5⟩ | ⟨h4, h5⟩
    · left
      have hf1 : f.1 = a := by simpa using h4
      have hf2 : f.2 = b := by simpa using h5
      have : (a, b) = f := Prod.ext_iff.mpr ⟨hf1.symm, hf2.symm⟩
      rw [this]
      exact hf
    · right
      have hf1 : f.1 = b := by simpa using h4
      have hf2 : f.2 = a := by simpa using h5
      have : (b, a) = f := Prod.ext_iff.mpr ⟨hf1.symm, hf2.symm⟩
      rw [this]
      exact hf
  · rw [if_neg h2]
    left
    exact List.mem_append_right _ (List.mem_singleton.mpr rfl)


/-- The edge fold keeps vertices duplicate-free. -/
theorem foldl_addEdges_nodup (es : List (ℕ × ℕ)) : ∀ G0 : Graph,
    G0.vertices.Nodup →
    (es.foldl (fun G e => G.add_edge_pair e.1 e.2) G0).vertices.Nodup := by
  induction es with
  | nil => intro G0 h; exact h
  | cons e es ih =>
      intro G0 h
      rw [List.foldl_cons]
      exact ih _ (add_edge_pair_nodup G0 e.1 e.2 h)

/-- Vertex membership after the edge fold. -/
theorem foldl_addEdges_vertex_mem (es : List (ℕ × ℕ)) : ∀ (G0 : Graph) (v : ℕ),
    (v ∈ (es.foldl (fun G e => G.add_edge_pair e.1 e.2) G0).vertices ↔
      v ∈ G0.vertices ∨ ∃ e ∈ es, v = e.1 ∨ v = e.2) := by
  induction es with
  | nil =>
      intro G0 v
      simp
  | cons e es ih =>
      intro G0 v
      rw [List.foldl_cons, ih, add_edge_pair_mem]
      constructor
      · intro h
        rcases h with (h | h | h) | h
        · exact Or.inl h
        · exact Or.inr ⟨e, List.mem_cons_self e es, Or.inl h⟩
        · exact Or.inr ⟨e, List.mem_cons_self e es, Or.inr h⟩
        · obtain ⟨e2, he2, h3⟩ := h
          exact Or.inr ⟨e2, List.mem_cons_of_mem _ he2, h3⟩
      · intro h
        rcases h with h | ⟨e2, he2, h3⟩
        · exact Or.inl (Or.inl h)
        · rcases List.mem_cons.mp he2 with h4 | h4
          · rw [h4] at h3
            rcases h3 with h3 | h3
            · exact Or.inl (Or.inr (Or.inl h3))
            · exact Or.inl (Or.inr (Or.inr h3))
          · exact Or.inr ⟨e2, h4, h3⟩

/-- Edges after the edge fold come from the start graph or the list. -/
theorem foldl_addEdges_edges_sub (es : List (ℕ × ℕ)) : ∀ (G0 : Graph) (e : ℕ × ℕ),
    e ∈ (es.foldl (fun G e => G.add_edge_pair e.1 e.2) G0).edges →
      e ∈ G0.edges ∨ e ∈ es := by
  induction es with
  | nil => intro G0 e h; exact Or.inl h
  | cons e2 es ih =>
      intro G0 e h
      rw [List.foldl_cons] at h
      rcases ih _ e h with h3 | h3
      · rcases add_edge_pair_edges_sub G0 e2.1 e2.2 e h3 with h4 | h4
        · exact Or.inl h4
        · exact Or.inr (by rw [h4]; exact List.mem_cons_self e2 es)
      · exact Or.inr (List.mem_cons_of_mem _ h3)

/-- The edge fold keeps existing edges. -/
theorem foldl_addEdges_edges_mono (es : List (ℕ × ℕ)) : ∀ (G0 : Graph) (e : ℕ × ℕ),
    e ∈ G0.edges → e ∈ (es.foldl (fun G e => G.add_edge_pair e.1 e.2) G0).edges := by
  induction es with
  | nil => intro G0 e h; exact h
  | cons e2 es ih =>
      intro G0 e h
      rw [List.foldl_cons]
      exact ih _ e (add_edge_pair_edges_mono G0 e2.1 e2.2 e h)

/-- Every listed edge is present after the fold, in one orientation. -/
theorem foldl_addEdges_present (es : List (ℕ × ℕ)) : ∀ (G0 : Graph) (e : ℕ × ℕ),
    e ∈ es →
      e ∈ (es.foldl (fun G e => G.add_edge_pair e.1 e.2) G0).edges ∨
        (e.2, e.1) ∈ (es.foldl (fun G e => G.add_edge_pair e.1 e.2) G0).edges := by
  induction es with
  | nil => intro G0 e h; cases h
  | cons e2 es ih =>
      intro G0 e h
      rw [List.foldl_cons]
      rcases List.mem_cons.mp h with h3 | h3
      · subst h3
        rcases add_edge_pair_present G0 e.1 e.2 with h4 | h4
        · exact Or.inl (foldl_addEdges_edges_mono es _ e h4)
        · exact Or.inr (foldl_addEdges_edges_mono es _ (e.2, e.1) h4)
      · exact ih _ e h3

/-- Membership in the complete-graph edge list. -/
theorem mem_completeEdges (n : ℕ) (e : ℕ × ℕ) :
    e ∈ completeEdges n ↔ e.1 < e.2 ∧ e.2 < n := by
  obtain ⟨a, b⟩ := e
  rw [completeEdges, List.mem_flatMap]
  constructor
  · intro h
    obtain ⟨i, hi, h2⟩ := h
    rw [List.mem_map] at h2
    obtain ⟨j, hj, h3⟩ := h2
    rw [List.mem_filter, List.mem_range] at hj
    have hij : i < j := by
      have := hj.2
      rwa [Nat.blt_eq] at this
    obtain ⟨h4, h5⟩ := Prod.ext_iff.mp h3
    simp only at h4 h5
    rw [← h4, ← h5]
    exact ⟨hij, hj.1⟩
  · intro h
    refine ⟨a, List.mem_range.mpr (by omega), ?_⟩
    rw [List.mem_map]
    refine ⟨b, ?_, rfl⟩
    rw [List.mem_filter, List.mem_range]
    refine ⟨h.2, ?_⟩
    rw [Nat.blt_eq]
    exact h.1

/-- The vertices of the complete-graph construction are exactly 0..n-1 when
n is at least 2. -/
theorem Kgraph_vertex_mem (n : ℕ) (hn : 2 ≤ n) (v : ℕ) :
    v ∈ (Graph.fromEdges (completeEdges n)).vertices ↔ v < n := by
  rw [Graph.fromEdges, foldl_addEdges_vertex_mem]
  constructor
  · intro h
    rcases h with h | ⟨e, he, h3⟩
    · cases h
    · obtain ⟨h4, h5⟩ := (mem_completeEdges n e).mp he
      rcases h3 with h3 | h3 <;> omega
  · intro h
    right
    by_cases hv : v + 1 < n
    · refine ⟨(v, v + 1), (mem_completeEdges n _).mpr ?_, Or.inl rfl⟩
      constructor <;> omega
    · refine ⟨(0, v), (mem_completeEdges n _).mpr ?_, Or.inr rfl⟩
      constructor <;> omega

/-- The vertices of the complete-graph construction are duplicate-free. -/
theorem Kgraph_nodup (n : ℕ) : (Graph.fromEdges (completeEdges n)).vertices.Nodup :=
  foldl_addEdges_nodup (completeEdges n) _ List.nodup_nil

/-- Edges of the complete-graph construction are complete-graph pairs. -/
theorem Kgraph_edges_sub (n : ℕ) (e : ℕ × ℕ)
    (h : e ∈ (Graph.fromEdges (completeEdges n)).edges) : e ∈ completeEdges n := by
  rcases foldl_addEdges_edges_sub (completeEdges n) _ e h with h2 | h2
  · cases h2
  · exact h2

/-- Every complete-graph pair is an edge of the construction in one
orientation. -/
theorem Kgraph_present (n : ℕ) (e : ℕ × ℕ) (h : e ∈ completeEdges n) :
    e ∈ (Graph.fromEdges (completeEdges n)).edges ∨
      (e.2, e.1) ∈ (Graph.fromEdges (completeEdges n)).edges :=
  foldl_addEdges_present (completeEdges n) _ e h

/-- Sorting a duplicate-free list whose members are exactly 0..n-1 gives the
range list. -/
theorem sortNats_eq_range (l : List ℕ) (n : ℕ) (hnd : l.Nodup)
    (hmem : ∀ v, v ∈ l ↔ v < n) : sortNats l = List.range n := by
  apply List.eq_of_perm_of_sorted (r := fun a b => a ≤ b)
  · refine (List.perm_insertionSort _ l).trans ?_
    apply (List.perm_ext_iff_of_nodup hnd (List.nodup_range n)).mpr
    intro a
    rw [hmem, List.mem_range]
  · exact List.sorted_insertionSort _ l
  · exact List.Pairwise.imp Nat.le_of_lt (List.pairwise_lt_range n)


/-- alookup succeeds exactly on the stored keys. -/
theorem alookup_isSome_iff (r : List (ℕ × List ℚ)) (v : ℕ) :
    (alookup r v).isSome = true ↔ v ∈ r.map Prod.fst := by
  induction r with
  | nil => simp [alookup]
  | cons q rest ih =>
      by_cases h : q.1 = v
      · simp [alookup, h]
      · simp only [alookup, h, if_false, List.map_cons, List.mem_cons]
        rw [ih]
        constructor
        · intro h2
          exact Or.inr h2
        · intro h2
          rcases h2 with h2 | h2
          · exact absurd h2.symm h
          · exact h2

/-- alookup on a list that maps keys to values. -/
theorem alookup_map_pair (vs : List ℕ) (f : ℕ → List ℚ) (v : ℕ) :
    alookup (vs.map (fun u => (u, f u))) v =
      if v ∈ vs then some (f v) else none := by
  induction vs with
  | nil => simp [alookup]
  | cons u rest ih =>
      rw [List.map_cons, alookup]
      by_cases h : u = v
      · subst h
        rw [if_pos rfl, if_pos (List.mem_cons_self u rest)]
      · show (if u = v then some (f u) else alookup (rest.map fun u => (u, f u)) v) = _
        rw [if_neg h, ih]
        by_cases h2 : v ∈ rest
        · rw [if_pos h2, if_pos (List.mem_cons_of_mem _ h2)]
        · rw [if_neg h2, if_neg ?_]
          intro hc
          rcases List.mem_cons.mp hc with h3 | h3
          · exact h h3.symm
          · exact h2 h3

/-- Eliminating a successful constructor call. -/
theorem init_some_elim (g : Graph) (r : List (ℕ × List ℚ)) (d : ℕ) (F : Framework)
    (h : Framework.init g r d = some F) :
    F.graph = g ∧
      F.realization = g.vertices.map (fun v => (v, (alookup r v).getD [])) ∧
      (∀ v ∈ g.vertices, ∃ p, alookup r v = some p ∧ p.length = F.dim) ∧
      F.dim = dimOf r d := by
  rw [Framework.init] at h
  by_cases hc : g.vertices.all (fun v =>
      match alookup r v with
      | some p => p.length == dimOf r d
      | none => false) = true
  · rw [if_pos hc, Option.some.injEq] at h
    subst h
    refine ⟨rfl, rfl, ?_, rfl⟩
    intro v hv
    have h3 := List.all_eq_true.mp hc v hv
    cases hl : alookup r v with
    | none => rw [hl] at h3; cases h3
    | some p =>
        rw [hl] at h3
        refine ⟨p, rfl, ?_⟩
        simpa using h3
  · rw [if_neg hc] at h
    cases h

/-- The rigidity row of an edge does not depend on its orientation. -/
theorem rigidityRow_swap (F : Framework) (ord : List ℕ) (u v : ℕ) :
    rigidityRow F ord (v, u) = rigidityRow F ord (u, v) := by
  by_cases huv : u = v
  · subst huv
    rfl
  · rw [rigidityRow, rigidityRow]
    congr 1
    apply List.map_congr_left
    intro w _
    simp only
    by_cases hw1 : w = u
    · have hnv : ¬ w = v := by
        intro hc
        apply huv
        rw [← hw1]
        exact hc
      rw [deltaC, if_neg hnv, if_pos hw1, smulV_neg_one_vsub, deltaC, if_pos hw1,
        smulV_one]
    · by_cases hw2 : w = v
      · rw [deltaC, if_pos hw2, smulV_one, deltaC, if_neg hw1, if_pos hw2,
          smulV_neg_one_vsub]
      · rw [deltaC, if_neg hw2, if_neg hw1, smulV_zero, deltaC, if_neg hw1,
          if_neg hw2, smulV_zero, vsub_length, vsub_length, Nat.min_comm]

/-- The sorted vertex list keeps the length. -/
theorem sortNats_length (l : List ℕ) : (sortNats l).length = l.length :=
  (List.perm_insertionSort _ l).length_eq

/-- Orthogonalization returns at most one vector per accumulated or input
vector. -/
theorem orthogonalizeQ_length_le : ∀ (input acc : List (List ℚ)),
    (orthogonalizeQ acc input).length ≤ acc.length + input.length := by
  intro input
  induction input with
  | nil =>
      intro acc
      rw [orthogonalizeQ]
      omega
  | cons v rest ih =>
      intro acc
      rw [orthogonalizeQ]
      by_cases hz : isZeroVec (gsReduce acc v) = true
      · rw [if_pos hz]
        have := ih acc
        simp only [List.length_cons]
        omega
      · rw [if_neg hz]
        have := ih (acc ++ [gsReduce acc v])
        rw [List.length_append] at this
        simp only [List.length_cons, List.length_nil] at this ⊢
        omega

/-- The rigidity row depends on the framework only through the two endpoint
coordinates. -/
theorem rigidityRow_congr (F F2 : Framework) (ord : List ℕ) (e : ℕ × ℕ)
    (h1 : F.realize e.1 = F2.realize e.1) (h2 : F.realize e.2 = F2.realize e.2) :
    rigidityRow F ord e = rigidityRow F2 ord e := by
  rw [rigidityRow, rigidityRow, h1, h2]

/-- A list with two distinct members has length at least 2. -/
theorem two_le_length_of_two_mem (l : List ℕ) (a b : ℕ) (ha : a ∈ l) (hb : b ∈ l)
    (hab : a ≠ b) : 2 ≤ l.length := by
  have hsub : [a, b] ⊆ l := by
    intro x hx
    rcases List.mem_cons.mp hx with h | h
    · rw [h]; exact ha
    · rw [List.mem_singleton.mp h]; exact hb
  have hnd : ([a, b] : List ℕ).Nodup := by simp [hab]
  have := (List.subperm_of_subset hnd hsub).length_le
  simpa using this

/-- Every row of the default rigidity matrix has dim columns per vertex. -/
theorem rigidityMatrixD_rowlen (F : Framework)
    (hr : ∀ q ∈ F.realization, q.2.length = F.dim)
    (hkeys : F.realization.map Prod.fst = F.graph.vertices)
    (he : ∀ e ∈ F.graph.edges, e.1 ∈ F.graph.vertices ∧ e.2 ∈ F.graph.vertices) :
    ∀ r ∈ F.rigidityMatrixD, r.length = F.dim * F.graph.vertices.length := by
  intro r hrm
  rw [Framework.rigidityMatrixD] at hrm
  obtain ⟨e, hes, rfl⟩ := List.mem_map.mp hrm
  have hee := (mem_sortEdges _ e).mp hes
  have h1 : (F.realize e.1).length = F.dim :=
    realize_length F e.1 hr (by rw [alookup_isSome_iff, hkeys]; exact (he e hee).1)
  have h2 : (F.realize e.2).length = F.dim :=
    realize_length F e.2 hr (by rw [alookup_isSome_iff, hkeys]; exact (he e hee).2)
  rw [rigidityRow_length F _ e h1 h2, sortNats_length]

/-- The column count of a nonempty default rigidity matrix. -/
theorem ncols_rigidityMatrixD (F : Framework)
    (hr : ∀ q ∈ F.realization, q.2.length = F.dim)
    (hkeys : F.realization.map Prod.fst = F.graph.vertices)
    (he : ∀ e ∈ F.graph.edges, e.1 ∈ F.graph.vertices ∧ e.2 ∈ F.graph.vertices)
    (hne : F.graph.edges ≠ []) :
    ncols F.rigidityMatrixD = F.dim * F.graph.vertices.length := by
  have hMne : F.rigidityMatrixD ≠ [] := by
    intro hc
    rw [Framework.rigidityMatrixD, List.map_eq_nil_iff] at hc
    have hp := List.perm_insertionSort edgeRel F.graph.edges
    rw [show List.insertionSort edgeRel F.graph.edges = sortEdges F.graph.edges
      from rfl, hc] at hp
    exact hne (List.Perm.eq_nil hp.symm)
  rw [ncols]
  exact rigidityMatrixD_rowlen F hr hkeys he _ (headD_mem _ [] hMne)

/-- The nullspace of the default rigidity matrix has dim |V| - rank vectors
once the graph has an edge. -/
theorem allFlexes_count (F : Framework)
    (hr : ∀ q ∈ F.realization, q.2.length = F.dim)
    (hkeys : F.realization.map Prod.fst = F.graph.vertices)
    (he : ∀ e ∈ F.graph.edges, e.1 ∈ F.graph.vertices ∧ e.2 ∈ F.graph.vertices)
    (hne : F.graph.edges ≠ []) :
    F.allFlexes.length =
      F.dim * F.graph.vertices.length - rankQ F.rigidityMatrixD := by
  have hc := ncols_rigidityMatrixD F hr hkeys he hne
  have huni : ∀ r ∈ F.rigidityMatrixD, r.length = ncols F.rigidityMatrixD := by
    intro r hrm
    rw [hc]
    exact rigidityMatrixD_rowlen F hr hkeys he r hrm
  rw [Framework.allFlexes, nullspaceQ_length _ huni, hc]

/-- A length-m kernel vector lies in the span of the nullspace basis. -/
theorem ker_mem_span_nullspace (M : List (List ℚ))
    (huni : ∀ r ∈ M, r.length = ncols M) (x : List ℚ)
    (hx : x.length = ncols M) (hker : inKer M x) :
    toF (ncols M) x ∈ Submodule.span ℚ (setL (ncols M) (nullspaceQ M)) := by
  rw [nullspaceQ_spans M huni x hx hker]
  apply Submodule.sum_mem
  intro i hi
  apply Submodule.smul_mem
  apply Submodule.subset_span
  rw [setL, Set.mem_setOf_eq]
  apply List.mem_map_of_mem
  apply getD_mem_of_lt
  rw [nullspaceQ, List.length_map]
  exact Finset.mem_range.mp hi

/-- C1: the claim asks is_redundantly_rigid to decide, for every framework,
whether every single-edge deletion leaves it rigid, returning a boolean and
never failing.  The source instead evaluates F.is_infinitesimally_rigid(F)
inside the loop, a bound-method call that passes the receiver a second time,
so the very first edge trial raises TypeError: here the non-degenerate rigid
triangle, which is redundantly flexible but should still get the answer False,
produces the failure value none instead of any boolean. -/
theorem C1_redundantly_rigid_raises :
    triangleF.graph.edges ≠ [] ∧
      triangleF.is_redundantly_rigid = none ∧
      ∀ b : Bool, triangleF.is_redundantly_rigid ≠ some b := by
  refine ⟨by decide, rfl, ?_⟩
  intro b
  simp [Framework.is_redundantly_rigid, triangleF]

/-- C2: is_infinitesimally_rigid returns true exactly when the graph has at
most one vertex or the rank of the rigidity matrix equals
dim * |V| - dim * (dim + 1) / 2, and is_infinitesimally_flexible is its
boolean negation. -/
theorem C2_rigid_iff_rank_attains_bound (F : Framework) :
    (F.is_infinitesimally_rigid = true ↔
      F.graph.vertices.length ≤ 1 ∨
        (F.rigidity_matrix_rank : ℤ) =
          (F.dim : ℤ) * F.graph.vertices.length -
            (F.dim : ℤ) * ((F.dim : ℤ) + 1) / 2) ∧
    F.is_infinitesimally_flexible = !F.is_infinitesimally_rigid := by
  constructor
  · simp [Framework.is_infinitesimally_rigid]
  · rfl

/-- The edge-trial loop of is_minimally_infinitesimally_rigid succeeds exactly
when deleting any of the listed edges leaves the framework flexible. -/
theorem minRigidLoop_eq_all (F : Framework) (es : List (ℕ × ℕ)) :
    minRigidLoop F es = true ↔
      ∀ e ∈ es, (F.delete_edge e).is_infinitesimally_flexible = true := by
  induction es with
  | nil => simp [minRigidLoop]
  | cons e rest ih =>
      by_cases h : (F.delete_edge e).is_infinitesimally_rigid
      · simp [minRigidLoop, h, Framework.is_infinitesimally_flexible]
      · simp [minRigidLoop, h, ih, Framework.is_infinitesimally_flexible]

/-- C5: is_minimally_infinitesimally_rigid returns true exactly when the
framework is infinitesimally rigid and deleting any single edge from an
independent copy leaves it infinitesimally flexible; the trials are pure, so
the original framework is untouched, and the loop is the short-circuiting
conjunction over the edge list. -/
theorem C5_minimally_rigid_characterization (F : Framework) :
    F.is_minimally_infinitesimally_rigid = true ↔
      (F.is_infinitesimally_rigid = true ∧
        ∀ e ∈ F.graph.edges, (F.delete_edge e).is_infinitesimally_flexible = true) := by
  unfold Framework.is_minimally_infinitesimally_rigid
  by_cases h : F.is_infinitesimally_rigid
  · simp [h, minRigidLoop_eq_all]
  · simp [h]

/-- C6: the claim promises that add_vertex fails rather than committing a
vertex whose coordinate length differs from dim.  The source stores
Matrix(point) without any length check, so on a valid 2-dimensional framework
add_vertex((1, 2, 3)) succeeds and commits a length-3 realization vector,
breaking the every-vector-has-length-dim invariant. -/
theorem C6_add_vertex_commits_bad_length :
    frameworkC6.invariant ∧
      frameworkC6.add_vertex [1, 2, 3] none = some frameworkC6after ∧
      ¬ frameworkC6after.invariant := by
  refine ⟨by decide, by decide, by decide⟩

/-- C7 counterexample: with existing vertices {0, 2, 3} the claim names the
new vertex 1, but the loop starts at len(vertices) = 3, finds 3 taken, and
assigns 4. -/
theorem C7_counterexample_gap_not_filled :
    frameworkC7.add_vertex [5, 5] none =
      some { graph := { vertices := [0, 2, 3, 4], edges := [] }
             realization := [(0, [0, 0]), (2, [1, 0]), (3, [0, 1]), (4, [5, 5])]
             dim := 2 } ∧
      (1 : ℕ) ∉ [0, 2, 3, 4] := by
  refine ⟨by decide, by decide⟩

/-- C7 amended: calling add_vertex without a vertex name inserts a new vertex
whose identifier is the smallest natural number that is at least the current
vertex count and not already used as a vertex identifier (so gaps below
len(vertices) are never reused). -/
theorem C7_amended_autoname (F : Framework) (p : List ℚ) :
    ∃ c, F.add_vertex p none =
        some { F with realization := aset F.realization c p
                      graph := F.graph.add_node c } ∧
      c ∉ F.graph.vertices ∧
      F.graph.vertices.length ≤ c ∧
      ∀ k, F.graph.vertices.length ≤ k → k < c → k ∈ F.graph.vertices := by
  refine ⟨findFreeName F.graph.vertices F.graph.vertices.length, ?_, ?_, ?_, ?_⟩
  · simp [Framework.add_vertex, findFreeName_not_mem]
  · exact findFreeName_not_mem _ _
  · exact findFreeName_ge _ _
  · exact fun k h1 h2 => findFreeName_min _ _ k h1 h2

/-- C8: the claim promises that the batch coordinate update fails whenever a
vertex key occurs twice in the input.  The duplicate test in the source
compares the None results of two in-place list.sort() calls, so it never
fires: updating vertex 0 twice in one call succeeds, the later coordinate
silently overwriting the earlier one. -/
theorem C8_duplicate_keys_accepted :
    frameworkC8.change_vertex_coordinates_list [0, 0] [[1, 1], [2, 2]] =
      some { graph := { vertices := [0, 1], edges := [] }
             realization := [(0, [2, 2]), (1, [1, 1])]
             dim := 2 } := by
  decide

/-- C4 amended: for a well-formed framework, infinitesimal_flexes with
include_trivial set returns exactly the raw nullspace basis of the rigidity
matrix; once the graph has an edge, that basis has exactly dim |V| - rank
vectors; and whenever trivial_infinitesimal_flexes succeeds with t vectors,
the include_trivial=false variant succeeds and returns exactly
(number of nullspace vectors) - t vectors, with t at most the nullspace count
when an edge exists.  The closed-form trivial count dim (dim + 1) / 2 of the
claim is refuted separately. -/
theorem C4_amended_flex_counts (F : Framework)
    (hkeys : F.realization.map Prod.fst = F.graph.vertices)
    (hr : ∀ q ∈ F.realization, q.2.length = F.dim)
    (hnd : F.graph.vertices.Nodup)
    (hedge : ∀ e ∈ F.graph.edges,
      e.1 ∈ F.graph.vertices ∧ e.2 ∈ F.graph.vertices ∧ e.1 ≠ e.2) :
    F.infinitesimal_flexes true = some F.allFlexes ∧
      (F.graph.edges ≠ [] → F.allFlexes.length =
        F.dim * F.graph.vertices.length - rankQ F.rigidityMatrixD) ∧
      ∀ tf, F.trivial_infinitesimal_flexes = some tf →
        (F.graph.edges ≠ [] → tf.length ≤ F.allFlexes.length) ∧
        ∃ l, F.infinitesimal_flexes false = some l ∧
          l.length = F.allFlexes.length - tf.length := by
  refine ⟨rfl, ?_, ?_⟩
  · intro hne
    exact allFlexes_count F hr hkeys
      (fun e he2 => ⟨(hedge e he2).1, (hedge e he2).2.1⟩) hne
  · intro tf htf0
    have hfl : F.infinitesimal_flexes false =
        some (((orthogonalizeQ [] (tf ++ F.allFlexes)).drop tf.length).take
          (F.allFlexes.length + 1 - tf.length)) := by
      have h1 : F.infinitesimal_flexes false =
          match F.trivial_infinitesimal_flexes with
          | none => none
          | some tf2 =>
              some (((orthogonalizeQ [] (tf2 ++ F.allFlexes)).drop tf2.length).take
                (F.allFlexes.length + 1 - tf2.length)) := rfl
      rw [h1, htf0]
    have htf1 := htf0
    rw [Framework.trivial_infinitesimal_flexes] at htf1
    obtain ⟨KF, hKF, htfv⟩ := Option.map_eq_some'.mp htf1
    obtain ⟨hKg, hKreal, hKcheck, hKdim⟩ := init_some_elim _ _ _ _ hKF
    by_cases hE : F.graph.edges = []
    · refine ⟨fun hne => absurd hE hne, ?_⟩
      have hM : F.rigidityMatrixD = [] := by
        rw [Framework.rigidityMatrixD, hE]
        rfl
      have haf : F.allFlexes = [] := by
        rw [Framework.allFlexes, hM]
        rfl
      refine ⟨_, hfl, ?_⟩
      have hgs := orthogonalizeQ_length_le (tf ++ F.allFlexes) []
      rw [List.length_append] at hgs
      rw [List.length_take, List.length_drop]
      rw [haf] at hgs ⊢
      simp only [List.length_nil] at hgs ⊢
      omega
    · obtain ⟨e0, he0⟩ := List.exists_mem_of_ne_nil F.graph.edges hE
      have hn2 : 2 ≤ F.graph.vertices.length :=
        two_le_length_of_two_mem _ _ _ (hedge e0 he0).1 (hedge e0 he0).2.1
          (hedge e0 he0).2.2
      have hsub : List.range F.graph.vertices.length ⊆ F.graph.vertices := by
        intro v hv
        have hvK : v ∈ (Graph.fromEdges
            (completeEdges F.graph.vertices.length)).vertices :=
          (Kgraph_vertex_mem _ hn2 v).mpr (List.mem_range.mp hv)
        obtain ⟨p, hp, _⟩ := hKcheck v hvK
        have hs : (alookup F.realization v).isSome = true := by
          rw [hp]
          rfl
        rw [alookup_isSome_iff, hkeys] at hs
        exact hs
      have hperm : List.Perm (List.range F.graph.vertices.length)
          F.graph.vertices :=
        (List.subperm_of_subset (List.nodup_range _) hsub).perm_of_length_le
          (by rw [List.length_range])
      have hmemF : ∀ v, v ∈ F.graph.vertices ↔ v < F.graph.vertices.length := by
        intro v
        rw [← hperm.mem_iff, List.mem_range]
      have hsortF : sortNats F.graph.vertices =
          List.range F.graph.vertices.length :=
        sortNats_eq_range _ _ hnd hmemF
      have hKmem := Kgraph_vertex_mem F.graph.vertices.length hn2
      have hsortK : sortNats (Graph.fromEdges
          (completeEdges F.graph.vertices.length)).vertices =
          List.range F.graph.vertices.length :=
        sortNats_eq_range _ _ (Kgraph_nodup _) hKmem
      have hKlen : (Graph.fromEdges
          (completeEdges F.graph.vertices.length)).vertices.length =
          F.graph.vertices.length := by
        rw [← sortNats_length (Graph.fromEdges
          (completeEdges F.graph.vertices.length)).vertices, hsortK,
          List.length_range]
      have hVne : F.graph.vertices ≠ [] := by
        intro hc
        rw [hc] at hn2
        simp at hn2
      have hRne : F.realization ≠ [] := by
        intro hc
        apply hVne
        rw [← hkeys, hc]
        rfl
      have hdimK : KF.dim = F.dim := by
        rw [hKdim]
        cases hRc : F.realization with
        | nil => exact absurd hRc hRne
        | cons q rest =>
            show q.2.length = F.dim
            exact hr q (by rw [hRc]; exact List.mem_cons_self q rest)
      have hKreal2 : ∀ v, v < F.graph.vertices.length →
          KF.realize v = F.realize v := by
        intro v hv
        rw [Framework.realize, hKreal, alookup_map_pair, if_pos ((hKmem v).mpr hv)]
        rfl
      have hK01 : ((0, 1) : ℕ × ℕ) ∈ completeEdges F.graph.vertices.length :=
        (mem_completeEdges _ _).mpr ⟨by omega, by omega⟩
      have hKEne : (Graph.fromEdges
          (completeEdges F.graph.vertices.length)).edges ≠ [] := by
        rcases Kgraph_present _ (0, 1) hK01 with h | h <;>
          (intro hc; rw [hc] at h; cases h)
      have hKedge : ∀ e ∈ (Graph.fromEdges
          (completeEdges F.graph.vertices.length)).edges,
          e.1 ∈ (Graph.fromEdges
            (completeEdges F.graph.vertices.length)).vertices ∧
          e.2 ∈ (Graph.fromEdges
            (completeEdges F.graph.vertices.length)).vertices ∧ e.1 ≠ e.2 := by
        intro e heK
        obtain ⟨h1, h2⟩ := (mem_completeEdges _ e).mp (Kgraph_edges_sub _ e heK)
        exact ⟨(hKmem e.1).mpr (by omega), (hKmem e.2).mpr (by omega), by omega⟩
      have hKkeys : KF.realization.map Prod.fst = KF.graph.vertices := by
        rw [hKreal, hKg, List.map_map]
        have hco : (Prod.fst ∘ fun v : ℕ =>
            ((v, (alookup F.realization v).getD []) : ℕ × List ℚ)) =
            fun v => v := rfl
        rw [hco, List.map_id']
      have hKr : ∀ q ∈ KF.realization, q.2.length = KF.dim := by
        intro q hq
        rw [hKreal] at hq
        obtain ⟨v, hv, rfl⟩ := List.mem_map.mp hq
        obtain ⟨p, hp, hplen⟩ := hKcheck v hv
        show ((alookup F.realization v).getD []).length = KF.dim
        rw [hp]
        exact hplen
      have hKhe : ∀ e ∈ KF.graph.edges,
          e.1 ∈ KF.graph.vertices ∧ e.2 ∈ KF.graph.vertices := by
        intro e heK
        rw [hKg] at heK ⊢
        exact ⟨(hKedge e heK).1, (hKedge e heK).2.1⟩
      have hKEne2 : KF.graph.edges ≠ [] := by
        rw [hKg]
        exact hKEne
      have hcK : ncols KF.rigidityMatrixD = KF.dim * KF.graph.vertices.length :=
        ncols_rigidityMatrixD KF hKr hKkeys hKhe hKEne2
      have hcK2 : ncols KF.rigidityMatrixD =
          F.dim * F.graph.vertices.length := by
        rw [hcK, hdimK, hKg, hKlen]
      have hhe2 : ∀ e ∈ F.graph.edges,
          e.1 ∈ F.graph.vertices ∧ e.2 ∈ F.graph.vertices :=
        fun e he2 => ⟨(hedge e he2).1, (hedge e he2).2.1⟩
      have hcG : ncols F.rigidityMatrixD = F.dim * F.graph.vertices.length :=
        ncols_rigidityMatrixD F hr hkeys hhe2 hE
      have huniG : ∀ r ∈ F.rigidityMatrixD,
          r.length = ncols F.rigidityMatrixD := by
        intro r hrm
        rw [hcG]
        exact rigidityMatrixD_rowlen F hr hkeys hhe2 r hrm
      have huniK : ∀ r ∈ KF.rigidityMatrixD,
          r.length = ncols KF.rigidityMatrixD := by
        intro r hrm
        rw [hcK]
        exact rigidityMatrixD_rowlen KF hKr hKkeys hKhe r hrm
      have hrows : ∀ r ∈ F.rigidityMatrixD, r ∈ KF.rigidityMatrixD := by
        intro r hrm
        rw [Framework.rigidityMatrixD] at hrm
        obtain ⟨e, hes, rfl⟩ := List.mem_map.mp hrm
        have hee := (mem_sortEdges _ e).mp hes
        obtain ⟨hu, hv, huv⟩ := hedge e hee
        have hun : e.1 < F.graph.vertices.length := (hmemF e.1).mp hu
        have hvn : e.2 < F.graph.vertices.length := (hmemF e.2).mp hv
        have hordEq : sortNats KF.graph.vertices = sortNats F.graph.vertices := by
          rw [hKg, hsortK, hsortF]
        have hcong : rigidityRow KF (sortNats KF.graph.vertices) e =
            rigidityRow F (sortNats F.graph.vertices) e := by
          rw [hordEq]
          exact rigidityRow_congr KF F _ e (hKreal2 e.1 hun) (hKreal2 e.2 hvn)
        have hmm : ∀ e2, e2 ∈ (Graph.fromEdges
            (completeEdges F.graph.vertices.length)).edges →
            (e2 = (e.1, e.2) ∨ e2 = (e.2, e.1)) →
            rigidityRow F (sortNats F.graph.vertices) e ∈ KF.rigidityMatrixD := by
          intro e2 hin hor
          rw [Framework.rigidityMatrixD]
          apply List.mem_map.mpr
          refine ⟨e2, by rw [mem_sortEdges, hKg]; exact hin, ?_⟩
          rcases hor with h | h
          · rw [h]
            exact hcong
          · rw [h]
            exact (rigidityRow_swap KF _ e.1 e.2).trans hcong
        rcases Nat.lt_or_ge e.1 e.2 with hlt | hge
        · rcases Kgraph_present _ (e.1, e.2)
              ((mem_completeEdges _ _).mpr ⟨hlt, hvn⟩) with hin | hin
          · exact hmm _ hin (Or.inl rfl)
          · exact hmm _ hin (Or.inr rfl)
        · have hlt2 : e.2 < e.1 := by omega
          rcases Kgraph_present _ (e.2, e.1)
              ((mem_completeEdges _ _).mpr ⟨hlt2, hun⟩) with hin | hin
          · exact hmm _ hin (Or.inr rfl)
          · exact hmm _ hin (Or.inl rfl)
      have htfk : ∀ t ∈ tf,
          t.length = F.dim * F.graph.vertices.length ∧
            inKer F.rigidityMatrixD t := by
        intro t ht
        rw [← htfv, Framework.allFlexes] at ht
        obtain ⟨hlen2, hker⟩ := nullspaceQ_mem_facts KF.rigidityMatrixD huniK t ht
        refine ⟨by rw [hlen2, hcK2], ?_⟩
        intro r2 hrm
        exact hker r2 (hrows r2 hrm)
      have htf_sub : ∀ t ∈ tf, toF (F.dim * F.graph.vertices.length) t ∈
          Submodule.span ℚ
            (setL (F.dim * F.graph.vertices.length) F.allFlexes) := by
        intro t ht
        obtain ⟨hlt, hkt⟩ := htfk t ht
        have hm := ker_mem_span_nullspace F.rigidityMatrixD huniG t
          (by rw [hlt, hcG]) hkt
        rw [hcG] at hm
        exact hm
      have hindepG : LinearIndependent ℚ
          (fun i : Fin F.allFlexes.length =>
            toF (F.dim * F.graph.vertices.length) (F.allFlexes.getD i [])) := by
        have hI := nullspaceQ_independent F.rigidityMatrixD
        rw [hcG] at hI
        exact hI
      have hindepK : LinearIndependent ℚ
          (fun i : Fin tf.length =>
            toF (F.dim * F.graph.vertices.length) (tf.getD i [])) := by
        have hI := nullspaceQ_independent KF.rigidityMatrixD
        rw [hcK2] at hI
        rw [← htfv]
        exact hI
      have htlen : ∀ t ∈ tf, t.length = F.dim * F.graph.vertices.length :=
        fun t ht => (htfk t ht).1
      have haflen : ∀ a ∈ F.allFlexes,
          a.length = F.dim * F.graph.vertices.length := by
        intro a ha
        obtain ⟨h1, _⟩ := nullspaceQ_mem_facts F.rigidityMatrixD huniG a ha
        rw [h1, hcG]
      have hcount : (orthogonalizeQ [] (tf ++ F.allFlexes)).length =
          F.allFlexes.length :=
        orthogonalize_count (F.dim * F.graph.vertices.length) tf F.allFlexes
          htlen haflen hindepG htf_sub
      have hle : tf.length ≤ F.allFlexes.length :=
        indep_card_le (F.dim * F.graph.vertices.length) tf F.allFlexes
          hindepK hindepG htf_sub
      refine ⟨fun _ => hle, ?_⟩
      refine ⟨_, hfl, ?_⟩
      rw [List.length_take, List.length_drop, hcount]
      omega

set_option maxRecDepth 10000

/-- C4 counterexample: the one-vertex edgeless framework in dimension 1 gets
an empty list from infinitesimal_flexes(include_trivial=true) although
dim |V| - rank = 1 (the nullspace-basis count claimed for every framework),
and the coincident segment, which has dim + 1 vertices, gets 0 nontrivial
flexes although the claimed count (dim |V| - rank) - dim (dim + 1) / 2 is 1. -/
theorem C4_counterexample_formula_fails :
    (oneVertexF.infinitesimal_flexes true).map List.length = some 0 ∧
      oneVertexF.dim * oneVertexF.graph.vertices.length -
        rankQ oneVertexF.rigidityMatrixD = 1 ∧
      coincidentF.dim + 1 ≤ coincidentF.graph.vertices.length ∧
      (coincidentF.nontrivial_infinitesimal_flexes).map List.length = some 0 ∧
      (coincidentF.dim * coincidentF.graph.vertices.length -
          rankQ coincidentF.rigidityMatrixD) -
        coincidentF.dim * (coincidentF.dim + 1) / 2 = 1 := by
  refine ⟨?_, ?_, ?_, ?_, ?_⟩
  · simp [oneVertexF, Framework.infinitesimal_flexes, Framework.allFlexes,
      nullspaceQ, freeCols, rrefOf, rrefAux, rrefStep, findPivotRow, elimAt, ncols,
      Framework.rigidityMatrixD, rigidityRow, sortEdges, sortNats,
      List.insertionSort, List.orderedInsert, List.range_zero]
  · simp [oneVertexF, rankQ, rrefOf, rrefAux, rrefStep, findPivotRow, ncols,
      Framework.rigidityMatrixD, sortEdges, List.insertionSort, List.orderedInsert]
  · simp [coincidentF]
  · simp [coincidentF, Framework.nontrivial_infinitesimal_flexes,
      Framework.infinitesimal_flexes, Framework.trivial_infinitesimal_flexes,
      Framework.allFlexes, Framework.init, dimOf, Graph.fromEdges, completeEdges,
      Graph.add_edge_pair, Graph.add_node, edgeMem, alookup, nullspaceQ, freeCols,
      nsVec, pivotIdx, rrefOf, rrefAux, rrefStep, findPivotRow, elimAt, ncols,
      rankQ, Framework.rigidityMatrixD, rigidityRow, deltaC, Framework.realize,
      sortEdges, sortNats, List.insertionSort, List.orderedInsert, edgeRel, smulV,
      vsub, dotV, entry, isZeroVec, orthogonalizeQ, gsReduce, List.range_succ,
      List.range_zero, List.forall_mem_cons, List.forall_mem_nil]
  · simp [coincidentF, rankQ, rrefOf, rrefAux, rrefStep, findPivotRow, elimAt,
      ncols, Framework.rigidityMatrixD, rigidityRow, deltaC, Framework.realize,
      alookup, sortEdges, sortNats, List.insertionSort, List.orderedInsert,
      edgeRel, smulV, vsub, entry]

/-- Witness for the amended C4 theorem at the stretched segment: the full
nullspace basis is returned for include_trivial=true, it has
dim |V| - rank = 1 vector, and the nontrivial variant returns 1 - 1 = 0
vectors. -/
theorem C4_witness :
    segF.infinitesimal_flexes true = some segF.allFlexes ∧
      segF.allFlexes.length =
        segF.dim * segF.graph.vertices.length - rankQ segF.rigidityMatrixD ∧
      ∃ l, segF.infinitesimal_flexes false = some l ∧
        l.length = segF.allFlexes.length - 1 := by
  obtain ⟨h1, h2, h3⟩ := C4_amended_flex_counts segF rfl (by decide) (by decide)
    (by decide)
  have htf : segF.trivial_infinitesimal_flexes = some [[1, 1]] := by
    simp [segF, Framework.trivial_infinitesimal_flexes,
      Framework.allFlexes, Framework.init, dimOf, Graph.fromEdges, completeEdges,
      Graph.add_edge_pair, Graph.add_node, edgeMem, alookup, nullspaceQ, freeCols,
      nsVec, pivotIdx, rrefOf, rrefAux, rrefStep, findPivotRow, elimAt, ncols, rankQ,
      Framework.rigidityMatrixD, rigidityRow, deltaC, Framework.realize, sortEdges,
      sortNats, List.insertionSort, List.orderedInsert, edgeRel, smulV, vsub, dotV,
      entry, isZeroVec, List.range_succ, List.range_zero,
      List.forall_mem_cons, List.forall_mem_nil]
    norm_num
  obtain ⟨hle, l, hl, hlen⟩ := h3 [[1, 1]] htf
  exact ⟨h1, h2 (by decide), l, hl, hlen⟩

/-- C9: get_realization followed by set_realization with the returned mapping
succeeds on any framework whose graph vertices all carry a dim-length
realization entry, reproduces the framework exactly, and therefore leaves the
rigidity matrix and every rigidity predicate unchanged. -/
theorem C9_get_set_realization_roundtrip (F : Framework)
    (h : ∀ v ∈ F.graph.vertices,
      Option.map List.length (alookup F.realization v) = some F.dim) :
    F.set_realization F.get_realization = some F ∧
      (F.set_realization F.get_realization).map Framework.rigidityMatrixD =
        some F.rigidityMatrixD ∧
      (F.set_realization F.get_realization).map Framework.is_infinitesimally_rigid =
        some F.is_infinitesimally_rigid ∧
      (F.set_realization F.get_realization).map Framework.is_minimally_infinitesimally_rigid =
        some F.is_minimally_infinitesimally_rigid := by
  have hall : F.graph.vertices.all (fun v =>
      match alookup F.get_realization v with
      | some p => p.length == F.dim
      | none => false) = true := by
    rw [List.all_eq_true]
    intro v hv
    have hx := h v hv
    cases hl : alookup F.get_realization v with
    | none => rw [Framework.get_realization] at hl; rw [hl] at hx; cases hx
    | some p =>
        rw [Framework.get_realization] at hl
        rw [hl] at hx
        simp at hx
        simpa using hx
  have h1 : F.set_realization F.get_realization = some F := by
    rw [Framework.set_realization, if_pos hall]
    rfl
  exact ⟨h1, by rw [h1]; rfl, by rw [h1]; rfl, by rw [h1]; rfl⟩

/-- Witness for C9 at the triangle framework. -/
theorem C9_witness :
    (∀ v ∈ triangleF.graph.vertices,
      Option.map List.length (alookup triangleF.realization v) = some triangleF.dim) ∧
      triangleF.set_realization triangleF.get_realization = some triangleF :=
  ⟨by decide, (C9_get_set_realization_roundtrip triangleF (by decide)).1⟩

/-- C10: with a non-empty realization the constructor takes the dimension from
the length of the first realization value and ignores the dim argument
entirely; the dim argument fixes the dimension exactly when the supplied
realization is empty. -/
theorem C10_constructor_dim_inference (g : Graph) (r : List (ℕ × List ℚ))
    (d d2 : ℕ) (h : r ≠ []) :
    Framework.init g r d = Framework.init g r d2 ∧
      (∀ F, Framework.init g r d = some F → F.dim = (r.headD (0, [])).2.length) ∧
      (∀ d3 F2, Framework.init g [] d3 = some F2 → F2.dim = d3) := by
  obtain ⟨q, rest, rfl⟩ : ∃ q rest, r = q :: rest := by
    cases r with
    | nil => cases h rfl
    | cons q rest => exact ⟨q, rest, rfl⟩
  refine ⟨rfl, ?_, ?_⟩
  · intro F hF
    rw [Framework.init] at hF
    by_cases hc : g.vertices.all (fun v =>
        match alookup (q :: rest) v with
        | some p => p.length == dimOf (q :: rest) d
        | none => false) = true
    · simp only [hc, if_true, Option.some.injEq] at hF
      rw [← hF]
      rfl
    · simp only [if_neg hc] at hF
      cases hF
  · intro d3 F2 hF
    rw [Framework.init] at hF
    by_cases hc : g.vertices.all (fun v =>
        match alookup ([] : List (ℕ × List ℚ)) v with
        | some p => p.length == dimOf [] d3
        | none => false) = true
    · simp only [hc, if_true, Option.some.injEq] at hF
      rw [← hF]
      rfl
    · simp only [if_neg hc] at hF
      cases hF

/-- Witness for C10 at a one-vertex graph with a 3-dimensional point and two
different ignored dim arguments. -/
theorem C10_witness :
    ([((0 : ℕ), [(7 : ℚ), 8, 9])] ≠ ([] : List (ℕ × List ℚ))) ∧
      Framework.init { vertices := [0], edges := [] } [(0, [7, 8, 9])] 5 =
        Framework.init { vertices := [0], edges := [] } [(0, [7, 8, 9])] 11 :=
  ⟨by decide,
    (C10_constructor_dim_inference { vertices := [0], edges := [] }
      [(0, [7, 8, 9])] 5 11 (by decide)).1⟩

end PyRigi
